import Mathlib

/-!
Verification of the cuZFP block-encoder core (`src/cuda_zfp/encode.cuh`).

The C++ source is shallowly embedded: machine integers are modelled as
`Nat`/`Int` with explicit reductions modulo `2^w`; the output stream of
64-bit words is a function `ℕ → ℕ` (word index to word value); floating
point scalars are modelled as exact rationals, which is faithful for the
operations used by the encoder (`fabs`, `max`, comparison, `frexp`,
multiplication by a power of two, truncation toward zero).
-/

namespace cuZFP

/-! ### Machine-integer helpers -/

/-- Reinterpret a signed value as an unsigned `w`-bit value (two's complement). -/
def toU (w : ℕ) (x : ℤ) : ℕ := (x % 2 ^ w).toNat

/-- Conversion of a signed value to a 32-bit unsigned `uint` (C conversion rule). -/
def toU32 (x : ℤ) : ℕ := toU 32 x

/-- Wrap an integer into the signed `w`-bit two's-complement range. -/
def wrap (w : ℕ) (v : ℤ) : ℤ := (v + 2 ^ (w - 1)) % 2 ^ w - 2 ^ (w - 1)

/-- Arithmetic shift right by one of a signed value (`>> 1` in C on a
signed operand): floor division by two (`/` on ℤ rounds toward minus
infinity for a positive divisor). -/
def asr (v : ℤ) : ℤ := v / 2

/-- Truncation toward zero of a rational to an integer (the C cast
`(Int)(double)` for in-range values). -/
def truncQ (q : ℚ) : ℤ := if 0 ≤ q then ⌊q⌋ else ⌈q⌉

/-! ### Negabinary map (`int2uint`, encode.cuh lines 9-19) -/

/-- The alternating mask `0xaa…a` of width `w` (bits set at odd positions). -/
def nbmask (w : ℕ) : ℕ := (List.range (w / 2)).foldl (fun a i => a + 2 * 4 ^ i) 0

/-- `int2uint` for `long long int` (64-bit):
`((unsigned long long)x + 0xaaaaaaaaaaaaaaaaull) ^ 0xaaaaaaaaaaaaaaaaull`,
with the addition wrapping modulo `2^64`. -/
def int2uint64 (x : ℤ) : ℕ :=
  ((toU 64 x + 0xaaaaaaaaaaaaaaaa) % 2 ^ 64) ^^^ 0xaaaaaaaaaaaaaaaa

/-- `int2uint` for `int` (32-bit): `((unsigned int)x + 0xaaaaaaaau) ^ 0xaaaaaaaau`. -/
def int2uint32 (x : ℤ) : ℕ :=
  ((toU 32 x + 0xaaaaaaaa) % 2 ^ 32) ^^^ 0xaaaaaaaa

/-- Width-generic form of `int2uint`, used by the embedded encoder pipeline. -/
def int2uintW (w : ℕ) (x : ℤ) : ℕ := ((toU w x + nbmask w) % 2 ^ w) ^^^ nbmask w

/-- The inverse map of `int2uint` (the zfp decoder's `uint2int`):
`(x ^ mask) - mask` in unsigned 64-bit arithmetic, reinterpreted as signed. -/
def uint2int64 (u : ℕ) : ℤ :=
  if ((u ^^^ 0xaaaaaaaaaaaaaaaa) + (2 ^ 64 - 0xaaaaaaaaaaaaaaaa)) % 2 ^ 64 < 2 ^ 63 then
    ((((u ^^^ 0xaaaaaaaaaaaaaaaa) + (2 ^ 64 - 0xaaaaaaaaaaaaaaaa)) % 2 ^ 64 : ℕ) : ℤ)
  else ((((u ^^^ 0xaaaaaaaaaaaaaaaa) + (2 ^ 64 - 0xaaaaaaaaaaaaaaaa)) % 2 ^ 64 : ℕ) : ℤ) -
    2 ^ 64

/-! ### `precision` (encode.cuh lines 22-27) -/

/-- The `MIN` macro from the shared header: `(a) < (b) ? (a) : (b)`. -/
def cMIN (a b : ℤ) : ℤ := if a < b then a else b

/-- The `MAX` macro from the shared header: `(a) > (b) ? (a) : (b)`. -/
def cMAX (a b : ℤ) : ℤ := if a > b then a else b

/-- `precision(maxexp, maxprec, minexp) = MIN(maxprec, MAX(0, maxexp - minexp + 8))`,
the maximum number of bit planes to encode (encode.cuh lines 22-27). -/
def precision (maxexp maxprec minexp : ℤ) : ℤ :=
  cMIN maxprec (cMAX 0 (maxexp - minexp + 8))

/-! ### `pad_block` (encode.cuh lines 29-50) -/

/-- `pad_block(p, n, s)`: the `switch (n)` with fall-through; each case
label `c` executes all assignments from case `c` down.  The array is a
total map from indices to scalars. -/
def pad_block {α : Type} [Zero α] (p : ℕ → α) (n s : ℕ) : ℕ → α :=
  let p0 := if n = 0 then Function.update p (0 * s) 0 else p
  let p1 := if n ≤ 1 then Function.update p0 (1 * s) (p0 (0 * s)) else p0
  let p2 := if n ≤ 2 then Function.update p1 (2 * s) (p1 (1 * s)) else p1
  if n ≤ 3 then Function.update p2 (3 * s) (p2 (0 * s)) else p2

/-! ### Lifting transform (`fwd_lift`, encode.cuh lines 77-102) -/

/-- The 4-point forward lifting transform on a `(x, y, z, w)` 4-vector of
`w`-bit two's-complement integers; each addition/subtraction wraps, `>> 1`
is an arithmetic shift (floor division). -/
def fwd_lift4 (wd : ℕ) (v : ℤ × ℤ × ℤ × ℤ) : ℤ × ℤ × ℤ × ℤ :=
  let x := v.1
  let y := v.2.1
  let z := v.2.2.1
  let w := v.2.2.2
  let x := wrap wd (x + w); let x := asr x; let w := wrap wd (w - x)
  let z := wrap wd (z + y); let z := asr z; let y := wrap wd (y - z)
  let x := wrap wd (x + z); let x := asr x; let z := wrap wd (z - x)
  let w := wrap wd (w + y); let w := asr w; let y := wrap wd (y - w)
  let w := wrap wd (w + asr y); let y := wrap wd (y - asr w)
  (x, y, z, w)

/-- The forward lifting steps over unbounded integers (ideal two's-complement
arithmetic, no overflow). -/
def fwd_liftZ (v : ℤ × ℤ × ℤ × ℤ) : ℤ × ℤ × ℤ × ℤ :=
  let x := v.1
  let y := v.2.1
  let z := v.2.2.1
  let w := v.2.2.2
  let x := x + w; let x := asr x; let w := w - x
  let z := z + y; let z := asr z; let y := y - z
  let x := x + z; let x := asr x; let z := z - x
  let w := w + y; let w := asr w; let y := y - w
  let w := w + asr y; let y := y - asr w
  (x, y, z, w)

/-- Modelled from the spec: `inv_lift` is not under `src/`; derived by
inverting each lifting step of `fwd_lift` in reverse order (this matches the
zfp decoder), on `wd`-bit two's-complement integers. -/
def inv_lift4 (wd : ℕ) (v : ℤ × ℤ × ℤ × ℤ) : ℤ × ℤ × ℤ × ℤ :=
  let x := v.1
  let y := v.2.1
  let z := v.2.2.1
  let w := v.2.2.2
  let y := wrap wd (y + asr w); let w := wrap wd (w - asr y)
  let y := wrap wd (y + w); let w := wrap wd (2 * w); let w := wrap wd (w - y)
  let z := wrap wd (z + x); let x := wrap wd (2 * x); let x := wrap wd (x - z)
  let y := wrap wd (y + z); let z := wrap wd (2 * z); let z := wrap wd (z - y)
  let w := wrap wd (w + x); let x := wrap wd (2 * x); let x := wrap wd (x - w)
  (x, y, z, w)

/-- Modelled from the spec: the inverse lifting steps over unbounded
integers. -/
def inv_liftZ (v : ℤ × ℤ × ℤ × ℤ) : ℤ × ℤ × ℤ × ℤ :=
  let x := v.1
  let y := v.2.1
  let z := v.2.2.1
  let w := v.2.2.2
  let y := y + asr w; let w := w - asr y
  let y := y + w; let w := 2 * w; let w := w - y
  let z := z + x; let x := 2 * x; let x := x - z
  let y := y + z; let z := 2 * z; let z := z - y
  let w := w + x; let x := 2 * x; let x := x - w
  (x, y, z, w)

/-- `fwd_lift<Int, s>(p + base)` acting on a block stored as a list:
read the four strided entries, transform, write them back. -/
def fwd_liftAt (wd : ℕ) (p : List ℤ) (base s : ℕ) : List ℤ :=
  let v := fwd_lift4 wd
    (p.getD base 0, p.getD (base + s) 0, p.getD (base + 2 * s) 0, p.getD (base + 3 * s) 0)
  ((((p.set base v.1).set (base + s) v.2.1).set (base + 2 * s) v.2.2.1).set
    (base + 3 * s) v.2.2.2)

/-- `transform<BlockSize>::fwd_xform` (encode.cuh lines 131-181): the 1-D
lift applied along each axis, with the source's bases and strides. -/
def fwd_xform (wd BS : ℕ) (p : List ℤ) : List ℤ :=
  if BS = 64 then
    let p1 := (List.range 4).foldl
      (fun q z => (List.range 4).foldl (fun q2 y => fwd_liftAt wd q2 (4 * y + 16 * z) 1) q) p
    let p2 := (List.range 4).foldl
      (fun q x => (List.range 4).foldl (fun q2 z => fwd_liftAt wd q2 (16 * z + x) 4) q) p1
    (List.range 4).foldl
      (fun q y => (List.range 4).foldl (fun q2 x => fwd_liftAt wd q2 (x + 4 * y) 16) q) p2
  else if BS = 16 then
    let p1 := (List.range 4).foldl (fun q y => fwd_liftAt wd q (4 * y) 1) p
    (List.range 4).foldl (fun q x => fwd_liftAt wd q x 4) p1
  else if BS = 4 then
    fwd_liftAt wd p 0 1
  else p

/-! ### Quantizer (`exponent`, `max_exponent`, `quantize_factor`, `fwd_cast`) -/

/-- `exponent(x)` (encode.cuh lines 52-63): for positive `x`, `frexp` yields
the `e` with `x = m·2^e`, `1/2 ≤ m < 1`, i.e. `e = ⌊log₂ x⌋ + 1`, clamped
below at `1 - ebias`; otherwise `-ebias`. -/
def exponentQ (ebias : ℤ) (x : ℚ) : ℤ :=
  if 0 < x then max (Int.log 2 x + 1) (1 - ebias) else -ebias

/-- `max_exponent` (encode.cuh lines 65-75). -/
def max_exponentQ (ebias : ℤ) (BS : ℕ) (p : List ℚ) : ℤ :=
  exponentQ ebias ((List.range BS).foldl (fun m i => max m |p.getD i 0|) 0)

/-- `ldexp(1.0, e)`: the exact power of two `2^e` as a rational. -/
def ldexpQ (e : ℤ) : ℚ :=
  if 0 ≤ e then ((2 ^ e.toNat : ℕ) : ℚ) else 1 / ((2 ^ (-e).toNat : ℕ) : ℚ)

/-- `quantize_factor` (encode.cuh lines 104-120): `ldexp(1.0, prec - 2 - e)`. -/
def quantize_factorQ (prec : ℕ) (e : ℤ) : ℚ := ldexpQ ((prec : ℤ) - 2 - e)

/-- `fwd_cast` (encode.cuh lines 122-129): scale by the quantization factor
and cast to `Int` (truncation toward zero; the concrete blocks encoded in
this file stay inside the `wd`-bit range, where the wrap is the identity). -/
def fwd_cast (wd prec BS : ℕ) (fblock : List ℚ) (emax : ℤ) : List ℤ :=
  let s := quantize_factorQ prec emax
  (List.range BS).map (fun i => wrap wd (truncQ (s * fblock.getD i 0)))

/-- Modelled from the spec: the zig-zag table `get_perm<4>` lives in the
shared header, absent from `src/`; for 1-D blocks the order by distance from
the DC corner (I5, §4.4) is the natural order. -/
def perm4 : List ℕ := [0, 1, 2, 3]

/-- `fwd_order` (encode.cuh lines 183-191): `ublock[i] = int2uint(iblock[perm[i]])`. -/
def fwd_order (wd : ℕ) (perm : List ℕ) (iblock : List ℤ) : List ℕ :=
  perm.map (fun j => int2uintW wd (iblock.getD j 0))

/-! ### Block writer (encode.cuh lines 193-280)

The stream is a total map from word index to 64-bit word value
(`Word = unsigned long long`, so `sizeof(Word) * 8 = 64`; the spec fixes
the word width to 64 in §8 scenario 5). `atomicAdd` is addition modulo
`2^64` on the addressed word. -/

structure BlockWriter where
  m_word_index : ℕ
  m_start_bit : ℕ
  m_current_bit : ℕ
  m_maxbits : ℤ
  m_stream : ℕ → ℕ

/-- The `BlockWriter` constructor (encode.cuh lines 202-210): the product
`block_idx * maxbits` is computed in 32-bit unsigned arithmetic. -/
def mkBlockWriter (stream : ℕ → ℕ) (maxbits : ℤ) (block_idx : ℕ) : BlockWriter :=
  { m_word_index := ((block_idx * toU32 maxbits) % 2 ^ 32) / 64
    m_start_bit := ((block_idx * toU32 maxbits) % 2 ^ 32) % 64
    m_current_bit := 0
    m_maxbits := maxbits
    m_stream := stream }

/-- `BlockWriter::write_bits` (encode.cuh lines 232-259).  `seg_end`
reproduces the unsigned computation `seg_start + n_bits - 1` (which wraps
for `n_bits = 0`); shifts follow the hardware clamp semantics, which `Nat`
shifts share.  The returned value `bits >> n_bits` is reproduced by the
callers below. -/
def BlockWriter.write_bits (s : BlockWriter) (bits n_bits : ℕ) : BlockWriter :=
  let seg_start := (s.m_start_bit + s.m_current_bit) % 64
  let write_index := s.m_word_index + (s.m_start_bit + s.m_current_bit) / 64
  let seg_end := (seg_start + n_bits + (2 ^ 32 - 1)) % 2 ^ 32
  let shift := seg_start
  let left := (bits >>> n_bits) <<< n_bits
  let b := bits - left
  let add := (b <<< shift) % 2 ^ 64
  let st1 := Function.update s.m_stream write_index ((s.m_stream write_index + add) % 2 ^ 64)
  let st2 := if seg_start < 64 ∧ 64 ≤ seg_end then
      Function.update st1 (write_index + 1) ((st1 (write_index + 1) + b >>> (64 - shift)) % 2 ^ 64)
    else st1
  { s with m_stream := st2, m_current_bit := s.m_current_bit + n_bits }

/-- `BlockWriter::write_bit` (encode.cuh lines 261-279).  The returned value
is the argument bit, reproduced by the callers below. -/
def BlockWriter.write_bit (s : BlockWriter) (bit : ℕ) : BlockWriter :=
  let shift := (s.m_start_bit + s.m_current_bit) % 64
  let write_index := s.m_word_index + (s.m_start_bit + s.m_current_bit) / 64
  let add := (bit <<< shift) % 2 ^ 64
  { s with
    m_stream := Function.update s.m_stream write_index
      ((s.m_stream write_index + add) % 2 ^ 64)
    m_current_bit := s.m_current_bit + 1 }

/-- The bit of a stream at global bit position `p` (bit `p % 64` of word
`p / 64`; the first bit written to a word is its least significant bit). -/
def bitAt (stream : ℕ → ℕ) (p : ℕ) : Bool := (stream (p / 64)).testBit (p % 64)

/-- The global bit position of the writer's cursor. -/
def gpos (s : BlockWriter) : ℕ := 64 * s.m_word_index + s.m_start_bit + s.m_current_bit

/-! ### Bit-plane encoder (`encode_block`, encode.cuh lines 282-311)

The loops are parametric in the writer so that the same embedded control
flow can be run against the word-level writer and against a trace writer
that records the sequence of emitted bits.  This is faithful because the
return values of `write_bits`/`write_bit` used in the source's loop guards
are functions of the arguments only (`bits >> n` and `bit`), which the
embedding reproduces inline. -/

structure WOps (σ : Type) where
  wbits : σ → ℕ → ℕ → σ
  wbit : σ → ℕ → σ

/-- The word-level writer operations. -/
def wordOps : WOps BlockWriter := ⟨BlockWriter.write_bits, BlockWriter.write_bit⟩

/-- The trace writer: records the emitted bits in order (least significant
first within a `write_bits` call, as the word-level writer packs them). -/
def traceOps : WOps (List Bool) :=
  ⟨fun t bits n => t ++ (List.range n).map (fun i => bits.testBit i),
   fun t bit => t ++ [bit.testBit 0]⟩

/-- The innermost `for` of step 3 (encode.cuh line 308):
`for (; n < BlockSize - 1 && bits && (bits--, !stream.write_bit(x & 1u)); x >>= 1, n++) ;`
The budget is the recursion fuel: the guard consumes one budget unit per
written bit.  Returns the writer, `n`, `x` and the remaining budget. -/
def rleInner {σ : Type} (ops : WOps σ) (BS : ℕ) : σ → ℕ → ℕ → ℕ → σ × ℕ × ℕ × ℕ
  | s, n, x, 0 => (s, n, x, 0)
  | s, n, x, b + 1 =>
    if n < BS - 1 then
      let s1 := ops.wbit s (x &&& 1)
      if x &&& 1 = 0 then rleInner ops BS s1 (n + 1) (x >>> 1) b
      else (s1, n, x, b)
    else (s, n, x, b + 1)

/-- The outer `for` of step 3 (encode.cuh line 307):
`for (; n < BlockSize && bits && (bits--, stream.write_bit(!!x)); x >>= 1, n++)`
with the innermost loop as its body.  `fuel` is structural recursion fuel;
every loop iteration consumes at least one budget unit, so any
`fuel ≥ bits` (the callers pass `fuel = bits`) runs the loop to its exit. -/
def rleOuter {σ : Type} (ops : WOps σ) (BS : ℕ) :
    ℕ → σ → ℕ → ℕ → ℕ → σ × ℕ × ℕ × ℕ
  | 0, s, n, x, bits => (s, n, x, bits)
  | fuel + 1, s, n, x, bits =>
    if bits = 0 then (s, n, x, bits)
    else if n < BS then
      let s1 := ops.wbit s (if x ≠ 0 then 1 else 0)
      if x ≠ 0 then
        let r := rleInner ops BS s1 n x (bits - 1)
        rleOuter ops BS fuel r.1 (r.2.1 + 1) (r.2.2.1 >>> 1) r.2.2.2
      else (s1, n, x, bits - 1)
    else (s, n, x, bits)

/-- Bit plane `k`: `x = Σ_i ((ublock[i] >> k) & 1) << i` (encode.cuh lines 299-301). -/
def planeVal (BS : ℕ) (u : List ℕ) (k : ℕ) : ℕ :=
  (List.range BS).foldl (fun x i => x + (((u.getD i 0) >>> k) &&& 1) <<< i) 0

/-- The bit-plane loop (encode.cuh lines 297-310):
`for (uint k = intprec, n = 0; bits && k-- > kmin;)` with steps 1-3 as body.
`k` is the pre-decrement counter (structural fuel); the plane encoded in an
iteration is `k - 1`. -/
def encodePlanes {σ : Type} (ops : WOps σ) (BS : ℕ) (u : List ℕ) (kmin : ℕ) :
    ℕ → σ → ℕ → ℕ → σ × ℕ × ℕ
  | 0, s, n, bits => (s, n, bits)
  | k + 1, s, n, bits =>
    if bits = 0 then (s, n, bits)
    else if k + 1 ≤ kmin then (s, n, bits)
    else
      let x := planeVal BS u k
      let m := min n bits
      let s1 := ops.wbits s x m
      let r := rleOuter ops BS (bits - m) s1 n (x >>> m) (bits - m)
      encodePlanes ops BS u kmin k r.1 r.2.1 r.2.2.2

/-- `encode_block` (encode.cuh lines 282-311): forward transform, reorder,
then the bit-plane loop.  `uint bits = maxbits` and the `intprec > maxprec`
comparison are 32-bit unsigned conversions of signed arguments.  Returns the
writer together with the final `n` and remaining budget. -/
def encode_block {σ : Type} (ops : WOps σ) (wd BS : ℕ) (perm : List ℕ) (st : σ)
    (maxbits maxprec : ℤ) (iblock : List ℤ) : σ × ℕ × ℕ :=
  let tb := fwd_xform wd BS iblock
  let u := fwd_order wd perm tb
  let intprec := wd
  let kmin := if toU32 maxprec < intprec then intprec - toU32 maxprec else 0
  let bits := toU32 maxbits
  encodePlanes ops BS u kmin intprec st 0 bits

/-! ### Block drivers (`zfp_encode_block`, encode.cuh lines 313-383) -/

/-- The per-scalar constants of a float kind.  These live in the shared
header, which is not under `src/`. -/
structure FloatTraits where
  ebias : ℤ
  ebits : ℕ
  prec : ℕ
  minexp : ℤ

/-- Modelled from the spec: the `double` traits.  `ebias = 1023` and
`ebits + 1 = 12` are given by §8 scenario 2, `prec = 64 = CHAR_BIT·sizeof(Int)`
by §3; the spec gives `min_exp` no value, and it is taken as `-1074`
(the IEEE-754 double denormal floor, §4.2's "denormal floor" convention). -/
def doubleTraits : FloatTraits := ⟨1023, 11, 64, -1074⟩

/-- The `maxprec` computed by the float block driver (encode.cuh line 319):
`precision(emax, get_precision<Scalar>(), get_min_exp<Scalar>())`.  The same
expression is used for every `BlockSize` instantiation of the driver. -/
def zfpMaxprec (t : FloatTraits) (emax : ℤ) : ℤ := precision emax t.prec t.minexp

/-- The float-scalar `zfp_encode_block` template (encode.cuh lines 313-329),
generic over the writer.  `uint e = maxprec ? emax + ebias : 0`; the header
`2e + 1` occupies `ebits + 1` bits; the integer width equals `prec`. -/
def zfp_encode_block_float {σ : Type} (ops : WOps σ) (t : FloatTraits) (BS : ℕ)
    (perm : List ℕ) (fblock : List ℚ) (maxbits : ℤ) (st : σ) : σ :=
  let emax := max_exponentQ t.ebias BS fblock
  let maxprec := zfpMaxprec t emax
  let e := if maxprec ≠ 0 then toU32 (emax + t.ebias) else 0
  if e ≠ 0 then
    let ebits := t.ebits + 1
    let st1 := ops.wbits st (2 * e + 1) ebits
    let iblock := fwd_cast t.prec t.prec BS fblock emax
    (encode_block ops t.prec BS perm st1 (maxbits - ebits) maxprec iblock).1
  else st

/-- `zfp_encode_block<double, BlockSize>` against the word-level writer. -/
def zfp_encode_block_f64 (BS : ℕ) (perm : List ℕ) (fblock : List ℚ) (maxbits : ℤ)
    (block_idx : ℕ) (stream : ℕ → ℕ) : BlockWriter :=
  zfp_encode_block_float wordOps doubleTraits BS perm fblock maxbits
    (mkBlockWriter stream maxbits block_idx)

/-- The `zfp_encode_block<long long int, BlockSize>` specializations
(encode.cuh lines 340-347, 358-365, 376-383): no header,
`maxprec = intprec = 64` (§3: the precision of an integer kind is its width). -/
def zfp_encode_block_i64 (BS : ℕ) (perm : List ℕ) (fblock : List ℤ) (maxbits : ℤ)
    (block_idx : ℕ) (stream : ℕ → ℕ) : BlockWriter :=
  (encode_block wordOps 64 BS perm (mkBlockWriter stream maxbits block_idx)
    maxbits 64 fblock).1

/-- The trace of bits emitted by `encode_block`, starting from an empty trace. -/
def encode_block_trace (wd BS : ℕ) (perm : List ℕ) (maxbits maxprec : ℤ)
    (iblock : List ℤ) : List Bool :=
  (encode_block traceOps wd BS perm [] maxbits maxprec iblock).1

/-! ## Theorems -/

/-- Helper: `bits - ((bits >>> n) <<< n)` is `bits % 2^n` (the low `n` bits
the writer actually deposits). -/
theorem sub_shift_shift_eq_mod (b n : ℕ) : b - (b >>> n) <<< n = b % 2 ^ n := by
  rw [Nat.shiftRight_eq_div_pow, Nat.shiftLeft_eq]
  have h2 := Nat.div_add_mod b (2 ^ n)
  rw [Nat.mul_comm] at h2
  generalize hq : b / 2 ^ n * 2 ^ n = q at *
  omega

/-- C9: two `write_bits` calls of the same width from the same writer state
whose arguments agree on the low `n` bits modify the stream identically and
advance `current_bit` identically, whatever the high bits are. -/
theorem write_bits_low_bits_only (s : BlockWriter) (b1 b2 n : ℕ) (hn : n < 64)
    (h : b1 % 2 ^ n = b2 % 2 ^ n) :
    (s.write_bits b1 n).m_stream = (s.write_bits b2 n).m_stream ∧
    (s.write_bits b1 n).m_current_bit = (s.write_bits b2 n).m_current_bit := by
  have key : b1 - (b1 >>> n) <<< n = b2 - (b2 >>> n) <<< n := by
    rw [sub_shift_shift_eq_mod, sub_shift_shift_eq_mod, h]
  constructor
  · simp only [BlockWriter.write_bits, key]
  · rfl

/-- Witness for C9 at a concrete state and arguments whose high bits differ. -/
theorem write_bits_low_bits_only_witness :
    4 < 64 ∧ 0xf3 % 2 ^ 4 = 0x03 % 2 ^ 4 ∧
    ((mkBlockWriter (fun _ => 0) 32 0).write_bits 0xf3 4).m_stream =
      ((mkBlockWriter (fun _ => 0) 32 0).write_bits 0x03 4).m_stream :=
  ⟨by norm_num, by norm_num,
    (write_bits_low_bits_only (mkBlockWriter (fun _ => 0) 32 0) 0xf3 0x03 4
      (by norm_num) (by norm_num)).1⟩

/-- C3: the per-block precision used by the float block driver is
`min(precision, max(0, emax - min_exp + 8))`; the driver computes it by the
same `BlockSize`-independent expression `zfpMaxprec` for every
dimensionality. -/
theorem driver_maxprec_formula (t : FloatTraits) (emax : ℤ) :
    zfpMaxprec t emax = min (t.prec : ℤ) (max 0 (emax - t.minexp + 8)) := by
  unfold zfpMaxprec precision cMIN cMAX
  rcases le_total (t.prec : ℤ) (max 0 (emax - t.minexp + 8)) with h | h <;>
    simp only [min_def, max_def] at * <;> split_ifs <;> omega

/-- C6 counterexample: applying the encoding formula `(x + M) XOR M` a second
time does not return the original value: at `x = -1` (whose negabinary code
is `3`), the formula applied to `3` yields `7`, not the bit pattern of `-1`. -/
theorem negabinary_same_formula_cex :
    ((int2uint64 (-1) + 0xaaaaaaaaaaaaaaaa) % 2 ^ 64) ^^^ 0xaaaaaaaaaaaaaaaa ≠
      toU 64 (-1) := by decide

/-- C6 (amended): the inverse of `int2uint` is `(u XOR M) - M` (not the same
formula); with that inverse the negabinary map round-trips every 64-bit
signed integer. -/
theorem negabinary_roundtrip (x : ℤ) (h1 : -(2 ^ 63) ≤ x) (h2 : x < 2 ^ 63) :
    uint2int64 (int2uint64 x) = x := by
  have e4 : (2 : ℕ) ^ 64 = 18446744073709551616 := by norm_num
  have e3 : (2 : ℕ) ^ 63 = 9223372036854775808 := by norm_num
  have f4 : (2 : ℤ) ^ 64 = 18446744073709551616 := by norm_num
  have f3 : (2 : ℤ) ^ 63 = 9223372036854775808 := by norm_num
  have hx : toU 64 x < 2 ^ 64 := by
    unfold toU
    rw [e4, f4]
    omega
  have hxor : int2uint64 x ^^^ 0xaaaaaaaaaaaaaaaa =
      (toU 64 x + 0xaaaaaaaaaaaaaaaa) % 2 ^ 64 := by
    unfold int2uint64
    rw [Nat.xor_assoc, Nat.xor_self, Nat.xor_zero]
  have hval' : ((int2uint64 x ^^^ 0xaaaaaaaaaaaaaaaa) + (2 ^ 64 - 0xaaaaaaaaaaaaaaaa)) %
      2 ^ 64 = toU 64 x := by
    rw [hxor, Nat.mod_add_mod, e4] at *
    omega
  unfold uint2int64
  rw [hval']
  unfold toU at *
  rw [e3, e4, f3, f4] at *
  omega

/-- Witness for C6's amended theorem at `x = -1`. -/
theorem negabinary_roundtrip_witness :
    -(2 ^ 63) ≤ (-1 : ℤ) ∧ (-1 : ℤ) < 2 ^ 63 ∧ uint2int64 (int2uint64 (-1)) = -1 :=
  ⟨by norm_num, by norm_num, negabinary_roundtrip (-1) (by norm_num) (by norm_num)⟩

set_option maxRecDepth 20000 in
/-- C5 counterexample: the forward lift is not injective on 64-bit
two's-complement 4-vectors — `(1,0,0,0)` and `(0,0,0,0)` collide — so no
inverse exists; in particular the step-by-step derived inverse fails on
`(1,0,0,0)`. -/
theorem lift_not_injective_cex :
    inv_lift4 64 (fwd_lift4 64 (1, 0, 0, 0)) ≠ (1, 0, 0, 0) ∧
    fwd_lift4 64 (1, 0, 0, 0) = fwd_lift4 64 (0, 0, 0, 0) ∧
    (1, 0, 0, 0) ≠ ((0, 0, 0, 0) : ℤ × ℤ × ℤ × ℤ) := by decide

/-- C10: `pad_block` leaves the first `n` strided entries unchanged, zeroes
the whole block when `n = 0`, copies the first entry into the last padded
slot (`p[3s] = p[0s]`, not `p[2s]`), and chains `p[1s] ← p[0s]` (for `n ≤ 1`)
and `p[2s] ← p[1s]` (for `n ≤ 2`). -/
theorem pad_block_spec {α : Type} [Zero α] (p : ℕ → α) (n s : ℕ) :
    (∀ i, i < n → n ≤ 3 → pad_block p n s (i * s) = p (i * s)) ∧
    (n = 0 → ∀ i, i ≤ 3 → pad_block p n s (i * s) = 0) ∧
    (n ≤ 3 → pad_block p n s (3 * s) = pad_block p n s (0 * s)) ∧
    (n ≤ 1 → pad_block p n s (1 * s) = pad_block p n s (0 * s)) ∧
    (n ≤ 2 → pad_block p n s (2 * s) = pad_block p n s (1 * s)) := by
  refine ⟨?_, ?_, ?_, ?_, ?_⟩
  · intro i hi hn3
    interval_cases n <;> interval_cases i <;>
      simp [pad_block, Function.update_apply] <;> (try split_ifs) <;> intros <;>
      first | rfl | (exfalso; omega) | (congr 1; omega) | (subst_vars; rfl) |
        (subst_vars; congr 1; omega)
  · intro hn i hi
    subst hn
    interval_cases i <;>
      simp [pad_block, Function.update_apply] <;> (try split_ifs) <;> intros <;>
      first | rfl | (exfalso; omega) | (congr 1; omega) | (subst_vars; rfl) |
        (subst_vars; congr 1; omega)
  · intro hn3
    interval_cases n <;>
      simp [pad_block, Function.update_apply] <;> (try split_ifs) <;> intros <;>
      first | rfl | (exfalso; omega) | (congr 1; omega) | (subst_vars; rfl) |
        (subst_vars; congr 1; omega)
  · intro hn1
    interval_cases n <;>
      simp [pad_block, Function.update_apply] <;> (try split_ifs) <;> intros <;>
      first | rfl | (exfalso; omega) | (congr 1; omega) | (subst_vars; rfl) |
        (subst_vars; congr 1; omega)
  · intro hn2
    interval_cases n <;>
      simp [pad_block, Function.update_apply] <;> (try split_ifs) <;> intros <;>
      first | rfl | (exfalso; omega) | (congr 1; omega) | (subst_vars; rfl) |
        (subst_vars; congr 1; omega)

/-- Witness for C10 at `n = 3`, `s = 1`, a concrete integer array. -/
theorem pad_block_spec_witness :
    (3 : ℕ) ≤ 3 ∧
    pad_block (fun j => (j : ℤ)) 3 1 (3 * 1) = pad_block (fun j => (j : ℤ)) 3 1 (0 * 1) :=
  ⟨by norm_num, (pad_block_spec (fun j => (j : ℤ)) 3 1).2.2.1 (by norm_num)⟩

/-- C5 (amended): the derived inverse is a one-sided inverse in the other
composition order: over unbounded (overflow-free) integer arithmetic,
`fwd_lift (inv_lift u) = u` for every 4-vector `u`; `inv_lift (fwd_lift v) = v`
fails in general because the shift-and-subtract steps discard low-order bits. -/
theorem lift_right_inverse (v : ℤ × ℤ × ℤ × ℤ) : fwd_liftZ (inv_liftZ v) = v := by
  obtain ⟨x, y, z, w⟩ := v
  simp only [fwd_liftZ, inv_liftZ, asr, Prod.mk.injEq]
  refine ⟨?_, ?_, ?_, ?_⟩ <;> omega

/-- Helper: the bit-plane loop writes nothing when the remaining budget is zero. -/
theorem encodePlanes_zero_budget {σ : Type} (ops : WOps σ) (BS : ℕ) (u : List ℕ)
    (kmin k : ℕ) (s : σ) (n : ℕ) :
    encodePlanes ops BS u kmin k s n 0 = (s, n, 0) := by
  cases k <;> simp [encodePlanes]

/-- C2 (amended): for the integer entry points, `maxbits = 0` writes no bits:
the stream and the cursor are untouched.  (For float blocks with a nonzero
biased exponent the header is written regardless of `maxbits`; see the
counterexample.) -/
theorem maxbits_zero_int_writes_nothing (BS : ℕ) (perm : List ℕ) (fblock : List ℤ)
    (block_idx : ℕ) (stream : ℕ → ℕ) :
    (zfp_encode_block_i64 BS perm fblock 0 block_idx stream).m_stream = stream ∧
    (zfp_encode_block_i64 BS perm fblock 0 block_idx stream).m_current_bit = 0 := by
  have h0 : toU32 0 = 0 := by decide
  unfold zfp_encode_block_i64 encode_block
  rw [h0, encodePlanes_zero_budget]
  exact ⟨rfl, rfl⟩

/-- Helper: the maximum exponent of the all-ones float64 block is `1`
(`frexp(1.0)` gives `0.5 · 2^1`). -/
theorem emax_ones : max_exponentQ doubleTraits.ebias 4 [1, 1, 1, 1] = 1 := by
  show max_exponentQ 1023 4 [1, 1, 1, 1] = 1
  unfold max_exponentQ
  rw [show (List.range 4).foldl (fun m i => max m |([1, 1, 1, 1] : List ℚ).getD i 0|) 0 = 1
    from by decide]
  unfold exponentQ
  rw [if_pos (by norm_num : (0 : ℚ) < 1), Int.log_one_right]
  decide

/-- Helper: quantization of the all-ones float64 block at `emax = 1`:
the factor is `2^61` and every entry casts to `2^61`. -/
theorem cast_ones : fwd_cast doubleTraits.prec doubleTraits.prec 4 [1, 1, 1, 1] 1 =
    [2305843009213693952, 2305843009213693952, 2305843009213693952, 2305843009213693952] := by
  show fwd_cast 64 64 4 [1, 1, 1, 1] 1 = _
  unfold fwd_cast quantize_factorQ ldexpQ truncQ
  rw [show List.range 4 = [0, 1, 2, 3] from rfl]
  norm_num [List.getD, wrap]
  rw [show (61 : ℤ).toNat = 61 from rfl]
  norm_num

set_option maxRecDepth 100000 in
/-- C2 counterexample: the float64 driver on the block `[1,1,1,1]` with
`maxbits = 0` writes bits anyway — the 12-bit exponent header (value
`2·1024 + 1 = 2049`) is emitted unconditionally, and the bit-plane loop runs
with the wrapped 32-bit budget `2^32 - 12`. -/
theorem maxbits_zero_writes_cex :
    (zfp_encode_block_f64 4 perm4 [1, 1, 1, 1] 0 0 (fun _ => 0)).m_stream 0 % 2 ^ 12 =
      2049 ∧ (2049 : ℕ) ≠ 0 := by
  constructor
  · unfold zfp_encode_block_f64 zfp_encode_block_float
    simp only []
    rw [emax_ones, cast_ones]
    decide
  · decide

/-- C7: an all-zero float block (any float kind via its traits, any block
size, any budget, any writer state) makes the driver write nothing: the
maximum exponent is `-ebias`, so the biased exponent `e` is `0` and the
driver returns before touching the writer. -/
theorem zero_block_writes_nothing {σ : Type} (ops : WOps σ) (t : FloatTraits)
    (BS : ℕ) (perm : List ℕ) (maxbits : ℤ) (st : σ) :
    zfp_encode_block_float ops t BS perm (List.replicate BS 0) maxbits st = st := by
  have hget : ∀ i : ℕ, (List.replicate BS (0 : ℚ)).getD i 0 = 0 := by
    intro i
    rcases Nat.lt_or_ge i BS with h | h
    · simp [List.getD, List.getElem?_replicate, h]
    · simp [List.getD, List.getElem?_eq_none, h, List.length_replicate]
  have hfold : ∀ L : List ℕ,
      L.foldl (fun m i => max m |(List.replicate BS (0 : ℚ)).getD i 0|) 0 = 0 := by
    intro L
    induction L with
    | nil => rfl
    | cons a L ih =>
      simp only [List.foldl_cons]
      have ha : max (0 : ℚ) |(List.replicate BS (0 : ℚ)).getD a 0| = 0 := by
        rw [hget a]
        simp
      rw [ha]
      exact ih
  have hemax : max_exponentQ t.ebias BS (List.replicate BS 0) = -t.ebias := by
    unfold max_exponentQ
    rw [hfold]
    unfold exponentQ
    simp
  unfold zfp_encode_block_float
  rw [hemax]
  simp [toU32, toU]

/-- C4 counterexample: on the spec's own scenario (float64 block
`[1.0, 1.0, 1.0, 1.0]`, `maxbits = 32`, block 0), the written header value is
`2049 = 2·(1 + 1023) + 1`, not `2047 = 2·1023 + 1`: `frexp` places `1.0` as
`0.5 · 2^1`, so `exponent(1.0) = 1` and `emax = 1`, not `0`. -/
theorem exponent_convention_cex :
    exponentQ 1023 1 = 1 ∧ (1 : ℤ) ≠ 0 ∧
    (zfp_encode_block_f64 4 perm4 [1, 1, 1, 1] 32 0 (fun _ => 0)).m_stream 0 % 2 ^ 12 =
      2049 ∧ (2049 : ℕ) ≠ 2047 := by
  have h1 : exponentQ 1023 1 = 1 := by
    unfold exponentQ
    rw [if_pos (by norm_num : (0 : ℚ) < 1), Int.log_one_right]
    decide
  refine ⟨h1, by decide, ?_, by decide⟩
  unfold zfp_encode_block_f64 zfp_encode_block_float
  simp only []
  rw [emax_ones, cast_ones]
  decide

/-- C4 (amended): for positive `x`, `exponent` returns the `frexp` exponent —
the `e` with `x = m·2^e` and `1/2 ≤ m < 1` — clamped below at `1 − ebias`;
consequently the block `[1.0, 1.0, 1.0, 1.0]` has `emax = 1`, biased exponent
`e = 1024`, and header value `2·1024 + 1 = 2049` in `ebits + 1 = 12` bits. -/
theorem exponent_frexp_convention :
    (∀ x : ℚ, 0 < x →
      x < 2 ^ exponentQ 1023 x ∧
      ((2 : ℚ) ^ (exponentQ 1023 x - 1) ≤ x ∨ exponentQ 1023 x = 1 - 1023) ∧
      1 - 1023 ≤ exponentQ 1023 x) ∧
    max_exponentQ 1023 4 [1, 1, 1, 1] = 1 ∧
    (zfp_encode_block_f64 4 perm4 [1, 1, 1, 1] 32 0 (fun _ => 0)).m_stream 0 % 2 ^ 12 =
      2 * (1 + 1023) + 1 := by
  refine ⟨?_, by exact emax_ones, ?_⟩
  swap
  · unfold zfp_encode_block_f64 zfp_encode_block_float
    simp only []
    rw [emax_ones, cast_ones]
    decide
  intro x hx
  unfold exponentQ
  rw [if_pos hx]
  rcases max_cases (Int.log 2 x + 1) (1 - 1023) with ⟨hm, hle⟩ | ⟨hm, hlt⟩
  · rw [hm]
    refine ⟨?_, Or.inl ?_, by omega⟩
    · have h := Int.lt_zpow_succ_log_self (b := 2) (by norm_num) x
      simpa using h
    · have h := Int.zpow_log_le_self (b := 2) (R := ℚ) (by norm_num) hx
      simpa using h
  · rw [hm]
    refine ⟨?_, Or.inr rfl, by omega⟩
    have h := Int.lt_zpow_succ_log_self (b := 2) (by norm_num) x
    have hmono : ((2 : ℚ)) ^ (Int.log 2 x + 1) ≤ (2 : ℚ) ^ (1 - 1023 : ℤ) :=
      zpow_le_zpow_right₀ (by norm_num) (by omega)
    calc x < (2 : ℚ) ^ (Int.log 2 x + 1) := by simpa using h
    _ ≤ (2 : ℚ) ^ (1 - 1023 : ℤ) := hmono

/-- Witness for C4's amended theorem at `x = 3/2`. -/
theorem exponent_frexp_convention_witness :
    0 < (3 / 2 : ℚ) ∧ (3 / 2 : ℚ) < 2 ^ exponentQ 1023 (3 / 2) :=
  ⟨by norm_num, (exponent_frexp_convention.1 (3 / 2) (by norm_num)).1⟩

/-- Helper: appending on the left preserves the prefix relation. -/
theorem prependKeep (t : List Bool) {u v : List Bool} (h : u <+: v) :
    t ++ u <+: t ++ v := by
  obtain ⟨w, hw⟩ := h
  exact ⟨w, by rw [← hw, List.append_assoc]⟩

/-- Helper: a list is a prefix of itself extended on the right. -/
theorem selfKeep (t u : List Bool) : t <+: t ++ u := ⟨u, rfl⟩

/-- Helper: the low-bits lists emitted by the trace writer are nested. -/
theorem mapRangeMono (f : ℕ → Bool) {m M : ℕ} (h : m ≤ M) :
    (List.range m).map f <+: (List.range M).map f := by
  have h2 : List.range m <+: List.range M := by
    have h3 := List.take_range m M
    rw [Nat.min_eq_left h] at h3
    rw [← h3]
    exact List.take_prefix m (List.range M)
  exact h2.map f

/-- Helper: the trace writer only appends (innermost loop). -/
theorem rleInner_extend (BS : ℕ) :
    ∀ (b : ℕ) (t : List Bool) (n x : ℕ), t <+: (rleInner traceOps BS t n x b).1 := by
  intro b
  induction b with
  | zero => intro t n x; exact ⟨[], by simp [rleInner]⟩
  | succ b ih =>
    intro t n x
    by_cases hn : n < BS - 1
    · by_cases hx : x &&& 1 = 0
      · simp only [rleInner, if_pos hn, if_pos hx]
        refine List.IsPrefix.trans ?_ (ih _ _ _)
        exact ⟨_, rfl⟩
      · simp only [rleInner, if_pos hn, if_neg hx]
        exact ⟨_, rfl⟩
    · simp only [rleInner, if_neg hn]
      exact ⟨[], by simp⟩

/-- Helper: the innermost loop returns at most its input budget. -/
theorem rleInner_bits_le {σ : Type} (ops : WOps σ) (BS : ℕ) :
    ∀ (b : ℕ) (s : σ) (n x : ℕ), (rleInner ops BS s n x b).2.2.2 ≤ b := by
  intro b
  induction b with
  | zero => intro s n x; simp [rleInner]
  | succ b ih =>
    intro s n x
    by_cases hn : n < BS - 1
    · by_cases hx : x &&& 1 = 0
      · simp only [rleInner, if_pos hn, if_pos hx]
        exact Nat.le_succ_of_le (ih _ _ _)
      · simp only [rleInner, if_pos hn, if_neg hx]
        exact Nat.le_succ b
    · simp only [rleInner, if_neg hn]
      exact Nat.le_refl _

/-- Helper: the trace writer only appends (outer run-length loop). -/
theorem rleOuter_extend (BS : ℕ) :
    ∀ (fuel : ℕ) (t : List Bool) (n x b : ℕ), t <+: (rleOuter traceOps BS fuel t n x b).1 := by
  intro fuel
  induction fuel with
  | zero => intro t n x b; exact ⟨[], by simp [rleOuter]⟩
  | succ fuel ih =>
    intro t n x b
    by_cases hb : b = 0
    · simp only [rleOuter, if_pos hb]
      exact ⟨[], by simp⟩
    · by_cases hn : n < BS
      · by_cases hx : x ≠ 0
        · simp only [rleOuter, if_neg hb, if_pos hn, if_pos hx]
          refine List.IsPrefix.trans ?_ (ih _ _ _ _)
          refine List.IsPrefix.trans ?_ (rleInner_extend BS _ _ _ _)
          exact ⟨_, rfl⟩
        · simp only [rleOuter, if_neg hb, if_pos hn, if_neg hx]
          exact ⟨_, rfl⟩
      · simp only [rleOuter, if_neg hb, if_neg hn]
        exact ⟨[], by simp⟩

/-- Helper: the outer run-length loop returns at most its input budget. -/
theorem rleOuter_bits_le {σ : Type} (ops : WOps σ) (BS : ℕ) :
    ∀ (fuel : ℕ) (s : σ) (n x b : ℕ), (rleOuter ops BS fuel s n x b).2.2.2 ≤ b := by
  intro fuel
  induction fuel with
  | zero => intro s n x b; simp [rleOuter]
  | succ fuel ih =>
    intro s n x b
    by_cases hb : b = 0
    · simp only [rleOuter, if_pos hb]
      omega
    · by_cases hn : n < BS
      · by_cases hx : x ≠ 0
        · simp only [rleOuter, if_neg hb, if_pos hn, if_pos hx]
          have h1 := ih (rleInner ops BS (ops.wbit s 1) n x (b - 1)).1
            ((rleInner ops BS (ops.wbit s 1) n x (b - 1)).2.1 + 1)
            ((rleInner ops BS (ops.wbit s 1) n x (b - 1)).2.2.1 >>> 1)
            (rleInner ops BS (ops.wbit s 1) n x (b - 1)).2.2.2
          have h2 := rleInner_bits_le ops BS (b - 1) (ops.wbit s 1) n x
          omega
        · simp only [rleOuter, if_neg hb, if_pos hn, if_neg hx]
          omega
      · simp only [rleOuter, if_neg hb, if_neg hn]
        exact Nat.le_refl _

/-- Helper: the trace writer only appends (bit-plane loop). -/
theorem encodePlanes_extend (BS : ℕ) (u : List ℕ) (kmin : ℕ) :
    ∀ (k : ℕ) (t : List Bool) (n b : ℕ), t <+: (encodePlanes traceOps BS u kmin k t n b).1 := by
  intro k
  induction k with
  | zero => intro t n b; exact ⟨[], by simp [encodePlanes]⟩
  | succ k ih =>
    intro t n b
    by_cases hb : b = 0
    · simp only [encodePlanes, if_pos hb]
      exact ⟨[], by simp⟩
    · by_cases hk : k + 1 ≤ kmin
      · simp only [encodePlanes, if_neg hb, if_pos hk]
        exact ⟨[], by simp⟩
      · simp only [encodePlanes, if_neg hb, if_neg hk]
        refine List.IsPrefix.trans ?_ (ih _ _ _)
        refine List.IsPrefix.trans ?_ (rleOuter_extend BS _ _ _ _ _)
        exact ⟨_, rfl⟩

/-- Helper: the bit-plane loop returns at most its input budget. -/
theorem encodePlanes_bits_le {σ : Type} (ops : WOps σ) (BS : ℕ) (u : List ℕ) (kmin : ℕ) :
    ∀ (k : ℕ) (s : σ) (n b : ℕ), (encodePlanes ops BS u kmin k s n b).2.2 ≤ b := by
  intro k
  induction k with
  | zero => intro s n b; simp [encodePlanes]
  | succ k ih =>
    intro s n b
    by_cases hb : b = 0
    · simp only [encodePlanes, if_pos hb]
      omega
    · by_cases hk : k + 1 ≤ kmin
      · simp only [encodePlanes, if_neg hb, if_pos hk]
        omega
      · simp only [encodePlanes, if_neg hb, if_neg hk]
        have h1 := ih (rleOuter ops BS (b - min n b) (ops.wbits s (planeVal BS u k) (min n b)) n
            (planeVal BS u k >>> min n b) (b - min n b)).1
          (rleOuter ops BS (b - min n b) (ops.wbits s (planeVal BS u k) (min n b)) n
            (planeVal BS u k >>> min n b) (b - min n b)).2.1
          (rleOuter ops BS (b - min n b) (ops.wbits s (planeVal BS u k) (min n b)) n
            (planeVal BS u k >>> min n b) (b - min n b)).2.2.2
        have h2 := rleOuter_bits_le ops BS (b - min n b)
          (ops.wbits s (planeVal BS u k) (min n b)) n (planeVal BS u k >>> min n b) (b - min n b)
        omega
/-- Helper: a run-length loop with an exhausted budget does nothing. -/
theorem rleOuter_zero_bits {σ : Type} (ops : WOps σ) (BS : ℕ) (fuel : ℕ) (s : σ) (n x : ℕ) :
    rleOuter ops BS fuel s n x 0 = (s, n, x, 0) := by
  cases fuel <;> simp [rleOuter]

/-- Helper: truncating the budget of the innermost loop truncates its trace:
the shorter run's trace is a prefix of the longer run's, and if the shorter
run does not exhaust its budget the two runs agree and keep their budget gap. -/
theorem rleInner_mono (BS : ℕ) :
    ∀ (b B : ℕ), b ≤ B → ∀ (t : List Bool) (n x : ℕ),
      (rleInner traceOps BS t n x b).1 <+: (rleInner traceOps BS t n x B).1 ∧
      ((rleInner traceOps BS t n x b).2.2.2 ≠ 0 →
        (rleInner traceOps BS t n x b).1 = (rleInner traceOps BS t n x B).1 ∧
        (rleInner traceOps BS t n x b).2.1 = (rleInner traceOps BS t n x B).2.1 ∧
        (rleInner traceOps BS t n x b).2.2.1 = (rleInner traceOps BS t n x B).2.2.1 ∧
        (rleInner traceOps BS t n x b).2.2.2 ≤ (rleInner traceOps BS t n x B).2.2.2 ∧
        B - b = (rleInner traceOps BS t n x B).2.2.2 - (rleInner traceOps BS t n x b).2.2.2) := by
  intro b
  induction b with
  | zero =>
    intro B hB t n x
    constructor
    · simp only [rleInner]
      exact rleInner_extend BS B t n x
    · intro h
      simp [rleInner] at h
  | succ b ih =>
    intro B hB t n x
    obtain ⟨B', rfl⟩ : ∃ B', B = B' + 1 := ⟨B - 1, by omega⟩
    by_cases hn : n < BS - 1
    · by_cases hx : x &&& 1 = 0
      · simp only [rleInner, if_pos hn, if_pos hx]
        have ihc := ih B' (by omega) (traceOps.wbit t (x &&& 1)) (n + 1) (x >>> 1)
        refine ⟨ihc.1, fun h => ?_⟩
        obtain ⟨e1, e2, e3, e4, e5⟩ := ihc.2 h
        exact ⟨e1, e2, e3, e4, by omega⟩
      · simp only [rleInner, if_pos hn, if_neg hx]
        refine ⟨⟨[], by simp⟩, fun _ => ?_⟩
        refine ⟨?_, ?_, ?_, ?_, ?_⟩ <;> first | rfl | trivial | omega
    · simp only [rleInner, if_neg hn]
      refine ⟨⟨[], by simp⟩, fun _ => ?_⟩
      refine ⟨?_, ?_, ?_, ?_, ?_⟩ <;> first | rfl | trivial | omega
/-- Helper: truncating the budget of the outer run-length loop truncates its
trace, provided each run has at least its budget in fuel. -/
theorem rleOuter_mono (BS : ℕ) :
    ∀ (fs bs : ℕ), bs ≤ fs → ∀ (fB bB : ℕ), bB ≤ fB → bs ≤ bB → ∀ (t : List Bool) (n x : ℕ),
      (rleOuter traceOps BS fs t n x bs).1 <+: (rleOuter traceOps BS fB t n x bB).1 ∧
      ((rleOuter traceOps BS fs t n x bs).2.2.2 ≠ 0 →
        (rleOuter traceOps BS fs t n x bs).1 = (rleOuter traceOps BS fB t n x bB).1 ∧
        (rleOuter traceOps BS fs t n x bs).2.1 = (rleOuter traceOps BS fB t n x bB).2.1 ∧
        (rleOuter traceOps BS fs t n x bs).2.2.1 = (rleOuter traceOps BS fB t n x bB).2.2.1 ∧
        (rleOuter traceOps BS fs t n x bs).2.2.2 ≤ (rleOuter traceOps BS fB t n x bB).2.2.2 ∧
        bB - bs =
          (rleOuter traceOps BS fB t n x bB).2.2.2 - (rleOuter traceOps BS fs t n x bs).2.2.2) := by
  intro fs
  induction fs with
  | zero =>
    intro bs hbs fB bB hbB hss t n x
    have hz : bs = 0 := by omega
    subst hz
    rw [show rleOuter traceOps BS 0 t n x 0 = (t, n, x, 0) from rfl]
    exact ⟨rleOuter_extend BS fB t n x bB, fun h => absurd rfl h⟩
  | succ f ih =>
    intro bs hbs fB bB hbB hss t n x
    by_cases hbs0 : bs = 0
    · subst hbs0
      rw [rleOuter_zero_bits]
      exact ⟨rleOuter_extend BS fB t n x bB, fun h => absurd rfl h⟩
    · obtain ⟨F, rfl⟩ : ∃ F, fB = F + 1 := ⟨fB - 1, by omega⟩
      have hbB0 : ¬ bB = 0 := by omega
      by_cases hn : n < BS
      · by_cases hx : x ≠ 0
        · simp only [rleOuter, if_neg hbs0, if_neg hbB0, if_pos hn, if_pos hx]
          have hi := rleInner_mono BS (bs - 1) (bB - 1) (by omega) (traceOps.wbit t 1) n x
          by_cases hz : (rleInner traceOps BS (traceOps.wbit t 1) n x (bs - 1)).2.2.2 = 0
          · rw [hz, rleOuter_zero_bits]
            refine ⟨?_, fun h => absurd rfl h⟩
            exact List.IsPrefix.trans hi.1 (rleOuter_extend BS F _ _ _ _)
          · obtain ⟨e1, e2, e3, e4, e5⟩ := hi.2 hz
            rw [e1, e2, e3]
            have hf1 : (rleInner traceOps BS (traceOps.wbit t 1) n x (bs - 1)).2.2.2 ≤ f := by
              have := rleInner_bits_le traceOps BS (bs - 1) (traceOps.wbit t 1) n x
              omega
            have hf2 : (rleInner traceOps BS (traceOps.wbit t 1) n x (bB - 1)).2.2.2 ≤ F := by
              have := rleInner_bits_le traceOps BS (bB - 1) (traceOps.wbit t 1) n x
              omega
            have ihc := ih (rleInner traceOps BS (traceOps.wbit t 1) n x (bs - 1)).2.2.2 hf1 F
              (rleInner traceOps BS (traceOps.wbit t 1) n x (bB - 1)).2.2.2 hf2 e4
              (rleInner traceOps BS (traceOps.wbit t 1) n x (bB - 1)).1
              ((rleInner traceOps BS (traceOps.wbit t 1) n x (bB - 1)).2.1 + 1)
              ((rleInner traceOps BS (traceOps.wbit t 1) n x (bB - 1)).2.2.1 >>> 1)
            refine ⟨ihc.1, fun h => ?_⟩
            obtain ⟨g1, g2, g3, g4, g5⟩ := ihc.2 h
            exact ⟨g1, g2, g3, g4, by omega⟩
        · simp only [rleOuter, if_neg hbs0, if_neg hbB0, if_pos hn, if_neg hx]
          refine ⟨⟨[], by simp⟩, fun _ => ?_⟩
          refine ⟨?_, ?_, ?_, ?_, ?_⟩ <;> first | rfl | trivial | omega
      · simp only [rleOuter, if_neg hbs0, if_neg hbB0, if_neg hn]
        refine ⟨⟨[], by simp⟩, fun _ => ?_⟩
        refine ⟨?_, ?_, ?_, ?_, ?_⟩ <;> first | rfl | trivial | omega
/-- Helper: truncating the budget of the bit-plane loop truncates its trace. -/
theorem encodePlanes_mono (BS : ℕ) (u : List ℕ) (kmin : ℕ) :
    ∀ (k bs bB : ℕ), bs ≤ bB → ∀ (t : List Bool) (n : ℕ),
      (encodePlanes traceOps BS u kmin k t n bs).1 <+:
        (encodePlanes traceOps BS u kmin k t n bB).1 := by
  intro k
  induction k with
  | zero =>
    intro bs bB hss t n
    exact ⟨[], by simp [encodePlanes]⟩
  | succ k ih =>
    intro bs bB hss t n
    by_cases hbs0 : bs = 0
    · subst hbs0
      rw [show encodePlanes traceOps BS u kmin (k + 1) t n 0 =
        ((t : List Bool), n, 0) from by simp [encodePlanes]]
      exact encodePlanes_extend BS u kmin (k + 1) t n bB
    · have hbB0 : ¬ bB = 0 := by omega
      by_cases hk : k + 1 ≤ kmin
      · simp only [encodePlanes, if_neg hbs0, if_neg hbB0, if_pos hk]
        exact ⟨[], by simp⟩
      · simp only [encodePlanes, if_neg hbs0, if_neg hbB0, if_neg hk]
        by_cases hm : n ≤ bs
        · -- both runs emit the same n raw bits
          have hms : min n bs = n := Nat.min_eq_left hm
          have hmB : min n bB = n := Nat.min_eq_left (by omega)
          rw [hms, hmB]
          have ho := rleOuter_mono BS (bs - n) (bs - n) (Nat.le_refl _) (bB - n) (bB - n)
            (Nat.le_refl _) (by omega) (traceOps.wbits t (planeVal BS u k) n) n
            (planeVal BS u k >>> n)
          by_cases hz :
              (rleOuter traceOps BS (bs - n) (traceOps.wbits t (planeVal BS u k) n) n
                (planeVal BS u k >>> n) (bs - n)).2.2.2 = 0
          · rw [hz, encodePlanes_zero_budget]
            refine List.IsPrefix.trans ho.1 ?_
            exact encodePlanes_extend BS u kmin k _ _ _
          · obtain ⟨g1, g2, g3, g4, g5⟩ := ho.2 hz
            rw [g1, g2]
            exact ih _ _ g4 _ _
        · -- the short run exhausts inside the raw-bits step
          have hms : min n bs = bs := Nat.min_eq_right (by omega)
          rw [hms]
          have hzs : bs - bs = 0 := by omega
          rw [hzs, rleOuter_zero_bits, encodePlanes_zero_budget]
          refine List.IsPrefix.trans ?_
            (encodePlanes_extend BS u kmin k _ _ _)
          refine List.IsPrefix.trans ?_
            (rleOuter_extend BS (bB - min n bB) _ _ _ _)
          show traceOps.wbits t (planeVal BS u k) bs <+:
            traceOps.wbits t (planeVal BS u k) (min n bB)
          show t ++ (List.range bs).map (fun i => (planeVal BS u k).testBit i) <+:
            t ++ (List.range (min n bB)).map (fun i => (planeVal BS u k).testBit i)
          exact prependKeep t (mapRangeMono _ (by omega))
/-- C8: monotone truncation — the trace of bits emitted by `encode_block`
under a smaller budget is a prefix of the trace under any larger budget
(hence of the unlimited-budget trace), for every block, width, permutation
and precision. -/
theorem trace_monotone_truncation (wd BS : ℕ) (perm : List ℕ) (maxprec : ℤ)
    (iblock : List ℤ) (b B : ℕ) (hb : b ≤ B) (hB : B < 2 ^ 32) :
    encode_block_trace wd BS perm (b : ℤ) maxprec iblock <+:
      encode_block_trace wd BS perm (B : ℤ) maxprec iblock := by
  have h32i : (2 : ℤ) ^ 32 = 4294967296 := by norm_num
  have h32n : (2 : ℕ) ^ 32 = 4294967296 := by norm_num
  have hcb : toU32 (b : ℤ) = b := by
    unfold toU32 toU
    rw [h32i]
    omega
  have hcB : toU32 (B : ℤ) = B := by
    unfold toU32 toU
    rw [h32i]
    omega
  unfold encode_block_trace encode_block
  simp only []
  rw [hcb, hcB]
  exact encodePlanes_mono BS _ _ wd b B hb [] 0

/-- Witness for C8 on a concrete block at budgets 16 and 40. -/
theorem trace_monotone_truncation_witness :
    (16 : ℕ) ≤ 40 ∧ (40 : ℕ) < 2 ^ 32 ∧
    encode_block_trace 64 4 perm4 ((16 : ℕ) : ℤ) 64 [77, -3, 12, 9] <+:
      encode_block_trace 64 4 perm4 ((40 : ℕ) : ℤ) 64 [77, -3, 12, 9] :=
  ⟨by norm_num, by norm_num,
    trace_monotone_truncation 64 4 perm4 64 [77, -3, 12, 9] 16 40 (by norm_num) (by norm_num)⟩

/-- Helper: if the bits of `w` in `[s, e)` are zero, `w mod 2^e = w mod 2^s`. -/
theorem mod_eq_of_mid_zero (w s e : ℕ) (hse : s ≤ e)
    (hz : ∀ j, s ≤ j → j < e → w.testBit j = false) :
    w % 2 ^ e = w % 2 ^ s := by
  apply Nat.eq_of_testBit_eq
  intro j
  rw [Nat.testBit_mod_two_pow, Nat.testBit_mod_two_pow]
  by_cases h1 : j < s
  · have he : j < e := by omega
    simp [h1, he]
  · by_cases h2 : j < e
    · have hb := hz j (by omega) h2
      simp [h1, h2, hb]
    · simp [h1, h2]

/-- Helper: adding a value of `n` bits shifted into a zero window `[s, s+n)`
of a 64-bit word changes no bit outside the window. -/
theorem add_shift_testBit (w b s n : ℕ) (hw : w < 2 ^ 64) (hb : b < 2 ^ n)
    (hsn : s + n ≤ 64) (hz : ∀ j, s ≤ j → j < s + n → w.testBit j = false) :
    ∀ j, j < s ∨ s + n ≤ j → ((w + b <<< s) % 2 ^ 64).testBit j = w.testBit j := by
  have hmod : w % 2 ^ (s + n) = w % 2 ^ s := mod_eq_of_mid_zero w s (s + n) (by omega) hz
  have hlo : w % 2 ^ s < 2 ^ s := Nat.mod_lt _ (Nat.two_pow_pos s)
  have hsplit : w = 2 ^ (s + n) * (w / 2 ^ (s + n)) + w % 2 ^ s := by
    rw [← hmod]
    exact (Nat.div_add_mod w (2 ^ (s + n))).symm
  have hshl : b <<< s = 2 ^ s * b := by
    rw [Nat.shiftLeft_eq]
    ring
  have hinner : 2 ^ s * b + w % 2 ^ s < 2 ^ (s + n) := by
    have h1 : 2 ^ s * b + w % 2 ^ s < 2 ^ s * b + 2 ^ s := by omega
    have h2 : 2 ^ s * b + 2 ^ s = 2 ^ s * (b + 1) := by ring
    have h3 : 2 ^ s * (b + 1) ≤ 2 ^ s * 2 ^ n := by
      have : b + 1 ≤ 2 ^ n := hb
      exact Nat.mul_le_mul_left _ this
    have h4 : (2 : ℕ) ^ s * 2 ^ n = 2 ^ (s + n) := (Nat.pow_add 2 s n).symm
    omega
  have hsum : w + b <<< s = 2 ^ (s + n) * (w / 2 ^ (s + n)) + (2 ^ s * b + w % 2 ^ s) := by
    rw [hshl]
    omega
  have hhi : w / 2 ^ (s + n) < 2 ^ (64 - (s + n)) := by
    apply Nat.div_lt_of_lt_mul
    calc w < 2 ^ 64 := hw
    _ = 2 ^ (s + n) * 2 ^ (64 - (s + n)) := by
      rw [← Nat.pow_add]
      congr 1
      omega
  have hlt : w + b <<< s < 2 ^ 64 := by
    rw [hsum]
    calc 2 ^ (s + n) * (w / 2 ^ (s + n)) + (2 ^ s * b + w % 2 ^ s)
        < 2 ^ (s + n) * (w / 2 ^ (s + n)) + 2 ^ (s + n) := by omega
    _ = 2 ^ (s + n) * (w / 2 ^ (s + n) + 1) := by ring
    _ ≤ 2 ^ (s + n) * 2 ^ (64 - (s + n)) := by
        apply Nat.mul_le_mul_left
        omega
    _ = 2 ^ 64 := by
        rw [← Nat.pow_add]
        congr 1
        omega
  intro j hj
  rw [Nat.mod_eq_of_lt hlt, hsum]
  rw [Nat.testBit_mul_pow_two_add _ hinner]
  rcases hj with hj | hj
  · rw [if_pos (by omega : j < s + n)]
    rw [Nat.testBit_mul_pow_two_add _ hlo, if_pos hj, Nat.testBit_mod_two_pow]
    simp [hj]
  · rw [if_neg (by omega : ¬ j < s + n)]
    conv_rhs => rw [hsplit]
    rw [Nat.testBit_mul_pow_two_add _ (by omega : w % 2 ^ s < 2 ^ (s + n))]
    rw [if_neg (by omega : ¬ j < s + n)]
/-- Helper: updating word `wi` of a valid stream by depositing `nb` bits at
offset `sh` into a zero window changes no global bit outside the window. -/
theorem upd1_testBit (f : ℕ → ℕ) (hv : ∀ i, f i < 2 ^ 64) (wi sh nb B : ℕ)
    (hB : B < 2 ^ nb) (hsn : sh + nb ≤ 64)
    (hz : ∀ j, sh ≤ j → j < sh + nb → (f wi).testBit j = false) :
    ∀ p, p < 64 * wi + sh ∨ 64 * wi + sh + nb ≤ p →
      bitAt (Function.update f wi ((f wi + B <<< sh) % 2 ^ 64)) p = bitAt f p := by
  intro p hp
  unfold bitAt
  rcases Nat.lt_trichotomy (p / 64) wi with hq | hq | hq
  · rw [Function.update_apply, if_neg (by omega)]
  · rw [hq, Function.update_apply, if_pos rfl]
    have hj := Nat.div_add_mod p 64
    have hj64 : p % 64 < 64 := Nat.mod_lt _ (by norm_num)
    have hout : p % 64 < sh ∨ sh + nb ≤ p % 64 := by omega
    exact add_shift_testBit (f wi) B sh nb (hv wi) hB hsn hz (p % 64) hout
  · rw [Function.update_apply, if_neg (by omega)]

/-- Helper: `gpos` as seen through the writer's word/offset decomposition. -/
theorem gpos_decomp (s : BlockWriter) :
    gpos s = 64 * (s.m_word_index + (s.m_start_bit + s.m_current_bit) / 64) +
      (s.m_start_bit + s.m_current_bit) % 64 := by
  unfold gpos
  have := Nat.div_add_mod (s.m_start_bit + s.m_current_bit) 64
  omega

/-- Helper: full effect of `write_bits` on a valid stream whose target
window is zero: the constructor fields survive, `current_bit` advances by
`n`, the stream stays valid, and no bit outside `[gpos, gpos + n)` changes. -/
theorem write_bits_effect (s : BlockWriter) (bits n : ℕ) (hn : n ≤ 64)
    (hv : ∀ i, s.m_stream i < 2 ^ 64)
    (hz : ∀ p, gpos s ≤ p → p < gpos s + n → bitAt s.m_stream p = false) :
    (s.write_bits bits n).m_word_index = s.m_word_index ∧
    (s.write_bits bits n).m_start_bit = s.m_start_bit ∧
    (s.write_bits bits n).m_maxbits = s.m_maxbits ∧
    (s.write_bits bits n).m_current_bit = s.m_current_bit + n ∧
    (∀ i, (s.write_bits bits n).m_stream i < 2 ^ 64) ∧
    (∀ p, p < gpos s ∨ gpos s + n ≤ p →
      bitAt (s.write_bits bits n).m_stream p = bitAt s.m_stream p) := by
  have h232 : (2 : ℕ) ^ 32 = 4294967296 := by norm_num
  refine ⟨rfl, rfl, rfl, rfl, ?_, ?_⟩
  · intro i
    simp only [BlockWriter.write_bits]
    split
    · rw [Function.update_apply]
      split
      · exact Nat.mod_lt _ (by norm_num)
      · rw [Function.update_apply]
        split
        · exact Nat.mod_lt _ (by norm_num)
        · exact hv i
    · rw [Function.update_apply]
      split
      · exact Nat.mod_lt _ (by norm_num)
      · exact hv i
  · intro p hp
    have hG := gpos_decomp s
    simp only [BlockWriter.write_bits]
    generalize hbg : bits - (bits >>> n) <<< n = b
    have hbm : b = bits % 2 ^ n := by rw [← hbg]; exact sub_shift_shift_eq_mod bits n
    have hblt : b < 2 ^ n := by rw [hbm]; exact Nat.mod_lt _ (Nat.two_pow_pos n)
    generalize hpg : s.m_start_bit + s.m_current_bit = pos at hG ⊢
    generalize hwg : s.m_word_index + pos / 64 = wi at hG ⊢
    generalize hsg : pos % 64 = sh at hG ⊢
    have hsh : sh < 64 := by rw [← hsg]; exact Nat.mod_lt _ (by norm_num)
    have hzw : ∀ q j, 64 * wi + sh ≤ 64 * q + j → 64 * q + j < 64 * wi + sh + n → j < 64 →
        (s.m_stream q).testBit j = false := by
      intro q j h1 h2 hj
      have := hz (64 * q + j) (by omega) (by omega)
      unfold bitAt at this
      rw [show (64 * q + j) / 64 = q from by omega,
        show (64 * q + j) % 64 = j from by omega] at this
      exact this
    rcases Nat.eq_zero_or_pos n with hn0 | hn1
    · -- n = 0 : nothing is deposited
      subst hn0
      have hb0 : b = 0 := by rw [hbm, pow_zero, Nat.mod_one]
      subst hb0
      have hub : ∀ (g : ℕ → ℕ) (q : ℕ), (∀ i, g i < 2 ^ 64) →
          ∀ i, Function.update g q ((g q + ((0 : ℕ) <<< sh) % 2 ^ 64) % 2 ^ 64) i = g i := by
        intro g q hg i
        have hval : (g q + ((0 : ℕ) <<< sh) % 2 ^ 64) % 2 ^ 64 = g q := by
          simp only [Nat.zero_shiftLeft, Nat.zero_mod, Nat.add_zero]
          exact Nat.mod_eq_of_lt (hg q)
        rw [hval, Function.update_eq_self]
      have hub2 : ∀ (g : ℕ → ℕ) (q : ℕ), (∀ i, g i < 2 ^ 64) →
          ∀ i, Function.update g q ((g q + (0 : ℕ) >>> (64 - sh)) % 2 ^ 64) i = g i := by
        intro g q hg i
        have hval : (g q + (0 : ℕ) >>> (64 - sh)) % 2 ^ 64 = g q := by
          simp only [Nat.zero_shiftRight, Nat.add_zero]
          exact Nat.mod_eq_of_lt (hg q)
        rw [hval, Function.update_eq_self]
      unfold bitAt
      split
      · rw [hub2 _ _ (by
          intro i
          rw [hub s.m_stream wi hv i]
          exact hv i)]
        rw [hub s.m_stream wi hv]
      · rw [hub s.m_stream wi hv]
    · -- n ≥ 1
      have hsegv : (sh + n + (2 ^ 32 - 1)) % 2 ^ 32 = sh + n - 1 := by
        rw [h232]
        omega
      by_cases hstr : sh + n ≤ 64
      · rw [if_neg (by rw [hsegv]; omega)]
        have hmod64 : (b <<< sh) % 2 ^ 64 = b <<< sh := by
          apply Nat.mod_eq_of_lt
          rw [Nat.shiftLeft_eq]
          have h1 : b * 2 ^ sh < 2 ^ n * 2 ^ sh :=
            (Nat.mul_lt_mul_right (Nat.two_pow_pos sh)).mpr hblt
          have h2 : (2 : ℕ) ^ n * 2 ^ sh = 2 ^ (n + sh) := (Nat.pow_add 2 n sh).symm
          have h3 : (2 : ℕ) ^ (n + sh) ≤ 2 ^ 64 :=
            Nat.pow_le_pow_right (by norm_num) (by omega)
          omega
        rw [hmod64]
        refine upd1_testBit s.m_stream hv wi sh n b hblt (by omega) ?_ p (by omega)
        intro j hj1 hj2
        exact hzw wi j (by omega) (by omega) (by omega)
      · -- straddle
        rw [if_pos (by rw [hsegv]; exact ⟨hsh, by omega⟩)]
        have hsh1 : 1 ≤ sh := by omega
        have hsplitb : (b <<< sh) % 2 ^ 64 = (b % 2 ^ (64 - sh)) <<< sh := by
          rw [Nat.shiftLeft_eq, Nat.shiftLeft_eq]
          have hsp : 64 - sh + sh = 64 := by omega
          rw [show (2 : ℕ) ^ 64 = 2 ^ (64 - sh) * 2 ^ sh from by rw [← Nat.pow_add, hsp]]
          exact Nat.mul_mod_mul_right _ _ _
        rw [hsplitb]
        have hu1 := upd1_testBit s.m_stream hv wi sh (64 - sh) (b % 2 ^ (64 - sh))
          (Nat.mod_lt _ (Nat.two_pow_pos _)) (by omega)
          (fun j hj1 hj2 => hzw wi j (by omega) (by omega) (by omega))
        have hf1v : ∀ i, Function.update s.m_stream wi
            ((s.m_stream wi + (b % 2 ^ (64 - sh)) <<< sh) % 2 ^ 64) i < 2 ^ 64 := by
          intro i
          rw [Function.update_apply]
          split
          · exact Nat.mod_lt _ (by norm_num)
          · exact hv i
        have hf1at : Function.update s.m_stream wi
            ((s.m_stream wi + (b % 2 ^ (64 - sh)) <<< sh) % 2 ^ 64) (wi + 1) =
            s.m_stream (wi + 1) := by
          rw [Function.update_apply, if_neg (by omega)]
        have hrem : b >>> (64 - sh) < 2 ^ (n - (64 - sh)) := by
          rw [Nat.shiftRight_eq_div_pow]
          apply Nat.div_lt_of_lt_mul
          have h1 : b < 2 ^ n := hblt
          have hsp : 64 - sh + (n - (64 - sh)) = n := by omega
          have h2 : (2 : ℕ) ^ (64 - sh) * 2 ^ (n - (64 - sh)) = 2 ^ n := by
            rw [← Nat.pow_add, hsp]
          omega
        have hu2 := upd1_testBit _ hf1v (wi + 1) 0 (n - (64 - sh)) (b >>> (64 - sh))
          hrem (by omega)
          (by
            intro j hj1 hj2
            rw [hf1at]
            exact hzw (wi + 1) j (by omega) (by omega) (by omega))
        have hshl0 : (b >>> (64 - sh)) <<< 0 = b >>> (64 - sh) := by simp
        rw [hshl0] at hu2
        rw [hu2 p (by omega)]
        exact hu1 p (by omega)

/-- Helper: full effect of `write_bit` (a 0/1 bit) on a valid stream whose
target bit is zero. -/
theorem write_bit_effect (s : BlockWriter) (bit : ℕ) (hbit : bit ≤ 1)
    (hv : ∀ i, s.m_stream i < 2 ^ 64)
    (hz : ∀ p, gpos s ≤ p → p < gpos s + 1 → bitAt s.m_stream p = false) :
    (s.write_bit bit).m_word_index = s.m_word_index ∧
    (s.write_bit bit).m_start_bit = s.m_start_bit ∧
    (s.write_bit bit).m_maxbits = s.m_maxbits ∧
    (s.write_bit bit).m_current_bit = s.m_current_bit + 1 ∧
    (∀ i, (s.write_bit bit).m_stream i < 2 ^ 64) ∧
    (∀ p, p < gpos s ∨ gpos s + 1 ≤ p →
      bitAt (s.write_bit bit).m_stream p = bitAt s.m_stream p) := by
  refine ⟨rfl, rfl, rfl, rfl, ?_, ?_⟩
  · intro i
    simp only [BlockWriter.write_bit]
    rw [Function.update_apply]
    split
    · exact Nat.mod_lt _ (by norm_num)
    · exact hv i
  · intro p hp
    have hG := gpos_decomp s
    simp only [BlockWriter.write_bit]
    generalize hpg : s.m_start_bit + s.m_current_bit = pos at hG ⊢
    generalize hwg : s.m_word_index + pos / 64 = wi at hG ⊢
    generalize hsg : pos % 64 = sh at hG ⊢
    have hsh : sh < 64 := by rw [← hsg]; exact Nat.mod_lt _ (by norm_num)
    have hmod64 : (bit <<< sh) % 2 ^ 64 = bit <<< sh := by
      apply Nat.mod_eq_of_lt
      rw [Nat.shiftLeft_eq]
      have h1 : bit * 2 ^ sh < 2 * 2 ^ sh := by
        have : bit < 2 := by omega
        exact (Nat.mul_lt_mul_right (Nat.two_pow_pos sh)).mpr this
      have h2 : (2 : ℕ) * 2 ^ sh = 2 ^ (sh + 1) := by
        rw [Nat.pow_succ]
        ring
      have h3 : (2 : ℕ) ^ (sh + 1) ≤ 2 ^ 64 := Nat.pow_le_pow_right (by norm_num) (by omega)
      omega
    rw [hmod64]
    refine upd1_testBit s.m_stream hv wi sh 1 bit (by omega) (by omega) ?_ p (by omega)
    intro j hj1 hj2
    have hgl := hz (64 * wi + j) (by omega) (by omega)
    unfold bitAt at hgl
    rw [show (64 * wi + j) / 64 = wi from by omega,
      show (64 * wi + j) % 64 = j from by omega] at hgl
    exact hgl

/-- `wordOps` field projections, as rewriting equations. -/
theorem wordOps_wbit (s : BlockWriter) (b : ℕ) : wordOps.wbit s b = s.write_bit b := rfl

theorem wordOps_wbits_eq (s : BlockWriter) (b n : ℕ) : wordOps.wbits s b n = s.write_bits b n := rfl

/-- Helper: frame property of the innermost run-length loop against the
word-level writer: it consumes `b - bits'` budget units, advances the cursor
by exactly that count, writes only inside `[gpos s, gpos s + consumed)`,
keeps the stream valid and the constructor fields intact, and does not grow
`n` past `max n (BS - 1)`. -/
theorem rleInner_frame (BS : ℕ) :
    ∀ (b : ℕ) (s : BlockWriter) (n x : ℕ), (∀ i, s.m_stream i < 2 ^ 64) →
      (∀ p, gpos s ≤ p → p < gpos s + b → bitAt s.m_stream p = false) →
      (rleInner wordOps BS s n x b).2.2.2 ≤ b ∧
      (rleInner wordOps BS s n x b).1.m_word_index = s.m_word_index ∧
      (rleInner wordOps BS s n x b).1.m_start_bit = s.m_start_bit ∧
      (rleInner wordOps BS s n x b).1.m_current_bit =
        s.m_current_bit + (b - (rleInner wordOps BS s n x b).2.2.2) ∧
      (∀ i, (rleInner wordOps BS s n x b).1.m_stream i < 2 ^ 64) ∧
      (∀ p, p < gpos s ∨ gpos s + (b - (rleInner wordOps BS s n x b).2.2.2) ≤ p →
        bitAt (rleInner wordOps BS s n x b).1.m_stream p = bitAt s.m_stream p) ∧
      (rleInner wordOps BS s n x b).2.1 ≤ max n (BS - 1) := by
  intro b
  induction b with
  | zero =>
    intro s n x hv hz
    exact ⟨Nat.le_refl _, rfl, rfl, rfl, hv, fun p hp => rfl, le_max_left n _⟩
  | succ b ih =>
    intro s n x hv hz
    by_cases hn : n < BS - 1
    · have hbit : x &&& 1 ≤ 1 := Nat.and_le_right
      have he := write_bit_effect s (x &&& 1) hbit hv
        (fun p h1 h2 => hz p h1 (by omega))
      obtain ⟨e1, e2, e3, e4, e5, e6⟩ := he
      have hg1 : gpos (s.write_bit (x &&& 1)) = gpos s + 1 := by
        unfold gpos
        rw [e1, e2, e4]
        omega
      have hz1 : ∀ p, gpos (s.write_bit (x &&& 1)) ≤ p →
          p < gpos (s.write_bit (x &&& 1)) + b →
          bitAt (s.write_bit (x &&& 1)).m_stream p = false := by
        intro p h1 h2
        rw [e6 p (by omega)]
        exact hz p (by omega) (by omega)
      by_cases hx : x &&& 1 = 0
      · simp only [rleInner, if_pos hn, if_pos hx, wordOps_wbit]
        have ihc := ih (s.write_bit (x &&& 1)) (n + 1) (x >>> 1) e5 hz1
        obtain ⟨i1, i2, i3, i4, i5, i6, i7⟩ := ihc
        refine ⟨by omega, by rw [i2]; exact e1, by rw [i3]; exact e2, ?_, i5, ?_, by omega⟩
        · rw [i4, e4]
          omega
        · intro p hp
          rw [i6 p (by omega), e6 p (by omega)]
      · simp only [rleInner, if_pos hn, if_neg hx, wordOps_wbit]
        refine ⟨by omega, e1, e2, by rw [e4]; omega, e5, ?_, le_max_left n _⟩
        intro p hp
        exact e6 p (by omega)
    · simp only [rleInner, if_neg hn]
      refine ⟨?_, ?_, ?_, ?_, hv, ?_, ?_⟩ <;>
        first | trivial | omega | (intro p hp; trivial) | exact le_max_left n _

/-- Helper: frame property of the outer run-length loop (any fuel): consumed
budget equals the cursor advance, writes stay inside
`[gpos s, gpos s + consumed)`, fields and validity are preserved, and `n`
never exceeds `max n BS`. -/
theorem rleOuter_frame (BS : ℕ) :
    ∀ (fuel : ℕ) (s : BlockWriter) (n x bits : ℕ),
      (∀ i, s.m_stream i < 2 ^ 64) →
      (∀ p, gpos s ≤ p → p < gpos s + bits → bitAt s.m_stream p = false) →
      (rleOuter wordOps BS fuel s n x bits).2.2.2 ≤ bits ∧
      (rleOuter wordOps BS fuel s n x bits).1.m_word_index = s.m_word_index ∧
      (rleOuter wordOps BS fuel s n x bits).1.m_start_bit = s.m_start_bit ∧
      (rleOuter wordOps BS fuel s n x bits).1.m_current_bit =
        s.m_current_bit + (bits - (rleOuter wordOps BS fuel s n x bits).2.2.2) ∧
      (∀ i, (rleOuter wordOps BS fuel s n x bits).1.m_stream i < 2 ^ 64) ∧
      (∀ p, p < gpos s ∨
          gpos s + (bits - (rleOuter wordOps BS fuel s n x bits).2.2.2) ≤ p →
        bitAt (rleOuter wordOps BS fuel s n x bits).1.m_stream p =
          bitAt s.m_stream p) ∧
      (rleOuter wordOps BS fuel s n x bits).2.1 ≤ max n BS := by
  intro fuel
  induction fuel with
  | zero =>
    intro s n x bits hv hz
    refine ⟨Nat.le_refl _, rfl, rfl, ?_, hv, fun p hp => rfl, le_max_left n _⟩
    show s.m_current_bit = s.m_current_bit + (bits - bits)
    omega
  | succ fuel ih =>
    intro s n x bits hv hz
    by_cases hb : bits = 0
    · simp only [rleOuter, if_pos hb]
      refine ⟨?_, ?_, ?_, ?_, hv, ?_, ?_⟩ <;>
        first | trivial | omega | (intro p hp; trivial) | exact le_max_left n _
    · by_cases hnBS : n < BS
      · by_cases hx : x = 0
        · have hx' : ¬x ≠ 0 := fun h => h hx
          simp only [rleOuter, if_neg hb, if_pos hnBS, if_neg hx', wordOps_wbit]
          have he := write_bit_effect s 0 (by omega) hv
            (fun p h1 h2 => hz p h1 (by omega))
          obtain ⟨e1, e2, e3, e4, e5, e6⟩ := he
          refine ⟨by omega, e1, e2, by rw [e4]; omega, e5, ?_, le_max_left n _⟩
          intro p hp
          exact e6 p (by omega)
        · have hx' : x ≠ 0 := hx
          simp only [rleOuter, if_neg hb, if_pos hnBS, if_pos hx', wordOps_wbit]
          have he := write_bit_effect s 1 (by omega) hv
            (fun p h1 h2 => hz p h1 (by omega))
          obtain ⟨e1, e2, e3, e4, e5, e6⟩ := he
          have hg1 : gpos (s.write_bit 1) = gpos s + 1 := by
            unfold gpos
            rw [e1, e2, e4]
            omega
          have hz1 : ∀ p, gpos (s.write_bit 1) ≤ p →
              p < gpos (s.write_bit 1) + (bits - 1) →
              bitAt (s.write_bit 1).m_stream p = false := by
            intro p h1 h2
            rw [e6 p (by omega)]
            exact hz p (by omega) (by omega)
          have hI := rleInner_frame BS (bits - 1) (s.write_bit 1) n x e5 hz1
          obtain ⟨i1, i2, i3, i4, i5, i6, i7⟩ := hI
          have hg2 : gpos (rleInner wordOps BS (s.write_bit 1) n x (bits - 1)).1 =
              gpos s + 1 +
                ((bits - 1) - (rleInner wordOps BS (s.write_bit 1) n x (bits - 1)).2.2.2) := by
            unfold gpos
            rw [i2, i4, i3, e1, e2, e4]
            omega
          have hz2 : ∀ p,
              gpos (rleInner wordOps BS (s.write_bit 1) n x (bits - 1)).1 ≤ p →
              p < gpos (rleInner wordOps BS (s.write_bit 1) n x (bits - 1)).1 +
                (rleInner wordOps BS (s.write_bit 1) n x (bits - 1)).2.2.2 →
              bitAt (rleInner wordOps BS (s.write_bit 1) n x (bits - 1)).1.m_stream p =
                false := by
            intro p h1 h2
            rw [i6 p (by omega)]
            exact hz1 p (by omega) (by omega)
          have hO := ih (rleInner wordOps BS (s.write_bit 1) n x (bits - 1)).1
            ((rleInner wordOps BS (s.write_bit 1) n x (bits - 1)).2.1 + 1)
            ((rleInner wordOps BS (s.write_bit 1) n x (bits - 1)).2.2.1 >>> 1)
            (rleInner wordOps BS (s.write_bit 1) n x (bits - 1)).2.2.2 i5 hz2
          obtain ⟨o1, o2, o3, o4, o5, o6, o7⟩ := hO
          refine ⟨by omega, by rw [o2, i2]; exact e1, by rw [o3, i3]; exact e2, ?_, o5,
            ?_, by omega⟩
          · rw [o4, i4, e4]
            omega
          · intro p hp
            rw [o6 p (by omega), i6 p (by omega), e6 p (by omega)]
      · simp only [rleOuter, if_neg hb, if_neg hnBS]
        refine ⟨?_, ?_, ?_, ?_, hv, ?_, ?_⟩ <;>
          first | trivial | omega | (intro p hp; trivial) | exact le_max_left n _

/-- Helper: frame property of the bit-plane loop: with a valid stream whose
budget window holds only zero bits, the loop consumes `bits - bits'` budget
units, advances the cursor by exactly that count, writes only inside
`[gpos s, gpos s + consumed)`, and keeps `n ≤ BS`. -/
theorem encodePlanes_frame (BS : ℕ) (u : List ℕ) (kmin : ℕ) (hBS : BS ≤ 64) :
    ∀ (k : ℕ) (s : BlockWriter) (n bits : ℕ), n ≤ BS →
      (∀ i, s.m_stream i < 2 ^ 64) →
      (∀ p, gpos s ≤ p → p < gpos s + bits → bitAt s.m_stream p = false) →
      (encodePlanes wordOps BS u kmin k s n bits).2.2 ≤ bits ∧
      (encodePlanes wordOps BS u kmin k s n bits).1.m_word_index = s.m_word_index ∧
      (encodePlanes wordOps BS u kmin k s n bits).1.m_start_bit = s.m_start_bit ∧
      (encodePlanes wordOps BS u kmin k s n bits).1.m_current_bit =
        s.m_current_bit + (bits - (encodePlanes wordOps BS u kmin k s n bits).2.2) ∧
      (∀ i, (encodePlanes wordOps BS u kmin k s n bits).1.m_stream i < 2 ^ 64) ∧
      (∀ p, p < gpos s ∨
          gpos s + (bits - (encodePlanes wordOps BS u kmin k s n bits).2.2) ≤ p →
        bitAt (encodePlanes wordOps BS u kmin k s n bits).1.m_stream p =
          bitAt s.m_stream p) ∧
      (encodePlanes wordOps BS u kmin k s n bits).2.1 ≤ BS := by
  intro k
  induction k with
  | zero =>
    intro s n bits hn hv hz
    refine ⟨Nat.le_refl _, rfl, rfl, ?_, hv, fun p hp => rfl, hn⟩
    show s.m_current_bit = s.m_current_bit + (bits - bits)
    omega
  | succ k ih =>
    intro s n bits hn hv hz
    by_cases hb : bits = 0
    · simp only [encodePlanes, if_pos hb]
      refine ⟨?_, ?_, ?_, ?_, hv, ?_, ?_⟩ <;>
        first | trivial | omega | (intro p hp; trivial) | exact hn
    · by_cases hk : k + 1 ≤ kmin
      · simp only [encodePlanes, if_neg hb, if_pos hk]
        refine ⟨?_, ?_, ?_, ?_, hv, ?_, ?_⟩ <;>
          first | trivial | omega | (intro p hp; trivial) | exact hn
      · simp only [encodePlanes, if_neg hb, if_neg hk, wordOps_wbits_eq]
        have hm : min n bits ≤ 64 := by omega
        have he := write_bits_effect s (planeVal BS u k) (min n bits) hm hv
          (fun p h1 h2 => hz p h1 (by omega))
        obtain ⟨e1, e2, e3, e4, e5, e6⟩ := he
        have hg1 : gpos (s.write_bits (planeVal BS u k) (min n bits)) =
            gpos s + min n bits := by
          unfold gpos
          rw [e1, e2, e4]
          omega
        have hz1 : ∀ p, gpos (s.write_bits (planeVal BS u k) (min n bits)) ≤ p →
            p < gpos (s.write_bits (planeVal BS u k) (min n bits)) +
              (bits - min n bits) →
            bitAt (s.write_bits (planeVal BS u k) (min n bits)).m_stream p = false := by
          intro p h1 h2
          rw [e6 p (by omega)]
          exact hz p (by omega) (by omega)
        have hO := rleOuter_frame BS (bits - min n bits)
          (s.write_bits (planeVal BS u k) (min n bits)) n
          (planeVal BS u k >>> min n bits) (bits - min n bits) e5 hz1
        obtain ⟨o1, o2, o3, o4, o5, o6, o7⟩ := hO
        have hg2 : gpos (rleOuter wordOps BS (bits - min n bits)
            (s.write_bits (planeVal BS u k) (min n bits)) n
            (planeVal BS u k >>> min n bits) (bits - min n bits)).1 =
            gpos s + min n bits + ((bits - min n bits) -
              (rleOuter wordOps BS (bits - min n bits)
                (s.write_bits (planeVal BS u k) (min n bits)) n
                (planeVal BS u k >>> min n bits) (bits - min n bits)).2.2.2) := by
          unfold gpos
          rw [o2, o4, o3, e1, e2, e4]
          omega
        have hz2 : ∀ p,
            gpos (rleOuter wordOps BS (bits - min n bits)
              (s.write_bits (planeVal BS u k) (min n bits)) n
              (planeVal BS u k >>> min n bits) (bits - min n bits)).1 ≤ p →
            p < gpos (rleOuter wordOps BS (bits - min n bits)
              (s.write_bits (planeVal BS u k) (min n bits)) n
              (planeVal BS u k >>> min n bits) (bits - min n bits)).1 +
              (rleOuter wordOps BS (bits - min n bits)
                (s.write_bits (planeVal BS u k) (min n bits)) n
                (planeVal BS u k >>> min n bits) (bits - min n bits)).2.2.2 →
            bitAt (rleOuter wordOps BS (bits - min n bits)
              (s.write_bits (planeVal BS u k) (min n bits)) n
              (planeVal BS u k >>> min n bits) (bits - min n bits)).1.m_stream p =
              false := by
          intro p h1 h2
          rw [o6 p (by omega)]
          exact hz1 p (by omega) (by omega)
        have hn2 : (rleOuter wordOps BS (bits - min n bits)
            (s.write_bits (planeVal BS u k) (min n bits)) n
            (planeVal BS u k >>> min n bits) (bits - min n bits)).2.1 ≤ BS := by
          omega
        have hP := ih (rleOuter wordOps BS (bits - min n bits)
            (s.write_bits (planeVal BS u k) (min n bits)) n
            (planeVal BS u k >>> min n bits) (bits - min n bits)).1
          (rleOuter wordOps BS (bits - min n bits)
            (s.write_bits (planeVal BS u k) (min n bits)) n
            (planeVal BS u k >>> min n bits) (bits - min n bits)).2.1
          (rleOuter wordOps BS (bits - min n bits)
            (s.write_bits (planeVal BS u k) (min n bits)) n
            (planeVal BS u k >>> min n bits) (bits - min n bits)).2.2.2
          hn2 o5 hz2
        obtain ⟨p1, p2, p3, p4, p5, p6, p7⟩ := hP
        refine ⟨by omega, by rw [p2, o2]; exact e1, by rw [p3, o3]; exact e2, ?_, p5,
          ?_, p7⟩
        · rw [p4, o4, e4]
          omega
        · intro p hp
          rw [p6 p (by omega), o6 p (by omega), e6 p (by omega)]

/-- Helper: `encode_block` against the word-level writer respects its budget:
it consumes `toU32 maxbits - bits'` budget units, advances the cursor by
exactly that count, and writes only inside the consumed window. -/
theorem encode_block_frame (wd BS : ℕ) (perm : List ℕ) (st : BlockWriter)
    (maxbits maxprec : ℤ) (iblock : List ℤ) (hBS : BS ≤ 64)
    (hv : ∀ i, st.m_stream i < 2 ^ 64)
    (hz : ∀ p, gpos st ≤ p → p < gpos st + toU32 maxbits →
      bitAt st.m_stream p = false) :
    (encode_block wordOps wd BS perm st maxbits maxprec iblock).2.2 ≤
      toU32 maxbits ∧
    (encode_block wordOps wd BS perm st maxbits maxprec iblock).1.m_word_index =
      st.m_word_index ∧
    (encode_block wordOps wd BS perm st maxbits maxprec iblock).1.m_start_bit =
      st.m_start_bit ∧
    (encode_block wordOps wd BS perm st maxbits maxprec iblock).1.m_current_bit =
      st.m_current_bit + (toU32 maxbits -
        (encode_block wordOps wd BS perm st maxbits maxprec iblock).2.2) ∧
    (∀ i, (encode_block wordOps wd BS perm st maxbits maxprec iblock).1.m_stream i
      < 2 ^ 64) ∧
    (∀ p, p < gpos st ∨ gpos st + (toU32 maxbits -
        (encode_block wordOps wd BS perm st maxbits maxprec iblock).2.2) ≤ p →
      bitAt (encode_block wordOps wd BS perm st maxbits maxprec iblock).1.m_stream p =
        bitAt st.m_stream p) := by
  unfold encode_block
  simp only []
  have h := encodePlanes_frame BS (fwd_order wd perm (fwd_xform wd BS iblock))
    (if toU32 maxprec < wd then wd - toU32 maxprec else 0) hBS wd st 0
    (toU32 maxbits) (Nat.zero_le _) hv hz
  exact ⟨h.1, h.2.1, h.2.2.1, h.2.2.2.1, h.2.2.2.2.1, h.2.2.2.2.2.1⟩

/-- C1 (amended): budget containment holds for the integer block driver.
For the `long long` entry point, a budget `mb < 2^32` whose slot start
`idx · mb` fits the 32-bit offset arithmetic, a valid stream whose slot
`[idx·mb, (idx+1)·mb)` is zero-initialised: the final `current_bit` is at
most `maxbits`, and every stream bit outside the block's slot
`[idx·mb, (idx+1)·mb)` is unchanged.  (The float driver violates this:
see the counterexample — the exponent header is written before any budget
check.) -/
theorem encode_budget_containment (BS : ℕ) (perm : List ℕ) (iblock : List ℤ)
    (mb idx : ℕ) (stream : ℕ → ℕ) (hBS : BS ≤ 64) (hmb : mb < 2 ^ 32)
    (hidx : idx * mb < 2 ^ 32) (hv : ∀ i, stream i < 2 ^ 64)
    (hz : ∀ p, idx * mb ≤ p → p < idx * mb + mb → bitAt stream p = false) :
    (zfp_encode_block_i64 BS perm iblock (mb : ℤ) idx stream).m_current_bit ≤ mb ∧
    ∀ p, p < idx * mb ∨ (idx + 1) * mb ≤ p →
      bitAt (zfp_encode_block_i64 BS perm iblock (mb : ℤ) idx stream).m_stream p =
        bitAt stream p := by
  have h232 : (2 : ℕ) ^ 32 = 4294967296 := by norm_num
  have htou : toU32 (mb : ℤ) = mb := by
    unfold toU32 toU
    rw [Int.emod_eq_of_lt (by positivity) (by exact_mod_cast hmb)]
    exact Int.toNat_natCast mb
  have hst : gpos (mkBlockWriter stream (mb : ℤ) idx) = idx * mb := by
    unfold gpos mkBlockWriter
    simp only [htou]
    rw [h232] at hidx ⊢
    omega
  have hcb0 : (mkBlockWriter stream (mb : ℤ) idx).m_current_bit = 0 := rfl
  have hv1 : ∀ i, (mkBlockWriter stream (mb : ℤ) idx).m_stream i < 2 ^ 64 := hv
  have hz1 : ∀ p, gpos (mkBlockWriter stream (mb : ℤ) idx) ≤ p →
      p < gpos (mkBlockWriter stream (mb : ℤ) idx) + toU32 (mb : ℤ) →
      bitAt (mkBlockWriter stream (mb : ℤ) idx).m_stream p = false := by
    intro p h1 h2
    rw [hst] at h1 h2
    rw [htou] at h2
    exact hz p h1 h2
  have hf := encode_block_frame 64 BS perm (mkBlockWriter stream (mb : ℤ) idx)
    (mb : ℤ) 64 iblock hBS hv1 hz1
  obtain ⟨f1, f2, f3, f4, f5, f6⟩ := hf
  rw [htou] at f1 f4
  constructor
  · show (encode_block wordOps 64 BS perm (mkBlockWriter stream (mb : ℤ) idx)
      (mb : ℤ) 64 iblock).1.m_current_bit ≤ mb
    omega
  · intro p hp
    show bitAt (encode_block wordOps 64 BS perm (mkBlockWriter stream (mb : ℤ) idx)
      (mb : ℤ) 64 iblock).1.m_stream p = bitAt stream p
    rw [f6 p ?_]
    · rfl
    · rw [hst, htou]
      rcases hp with hp | hp
      · exact Or.inl hp
      · right
        have : (idx + 1) * mb = idx * mb + mb := by ring
        omega

/-- Witness for the C1 theorem at a concrete input: block `[1,1,1,1]`,
`maxbits = 32`, block index `0`, zero stream. -/
theorem encode_budget_containment_witness :
    (zfp_encode_block_i64 4 perm4 [1, 1, 1, 1] ((32 : ℕ) : ℤ) 0
      (fun _ => 0)).m_current_bit ≤ 32 ∧
    ∀ p, p < 0 * 32 ∨ (0 + 1) * 32 ≤ p →
      bitAt (zfp_encode_block_i64 4 perm4 [1, 1, 1, 1] ((32 : ℕ) : ℤ) 0
        (fun _ => 0)).m_stream p = bitAt (fun _ => 0) p :=
  encode_budget_containment 4 perm4 [1, 1, 1, 1] 32 0 (fun _ => 0) (by norm_num)
    (by norm_num) (by norm_num) (fun i => by norm_num)
    (fun p h1 h2 => by simp [bitAt])

set_option maxRecDepth 100000 in
/-- C1 counterexample: the claimed containment fails on the float64 driver.
With `maxbits = 1` and block index `0` the block's slot is `[0, 1)`, yet
encoding `[1,1,1,1]` sets stream bit `11` (the top bit of the 12-bit
exponent header, which is written before any budget check). -/
theorem encode_budget_containment_cex :
    (1 : ℕ) ≤ 11 ∧
    bitAt (zfp_encode_block_f64 4 perm4 [1, 1, 1, 1] 1 0 (fun _ => 0)).m_stream 11 =
      true ∧
    bitAt (fun _ => 0) 11 = false := by
  refine ⟨by norm_num, ?_, by decide⟩
  unfold zfp_encode_block_f64 zfp_encode_block_float
  simp only []
  rw [emax_ones, cast_ones]
  decide


end cuZFP
